import Mathlib

/-!
# spotify-playlist-mixer: a shallow embedding of `main.go`

The program is one command (`RunE`) that authenticates, lists the user's
playlists, parses a selection, creates a destination playlist, pages through the
selected playlists, shuffles the collected track ids and writes them back in
batches.  The embedding keeps the control flow and every request made through
the API client; console output is not modelled.

Go strings are lists of characters, Go `int` values are integers (`Int`) with the
64-bit range made explicit where the code depends on it (`strconv.Atoi`).
-/

namespace PlaylistMixer

deriving instance DecidableEq for Except

/-! ## Strings: `strings.TrimSpace`, `strings.Split`, `strconv.Atoi` -/

/-- The predicate `unicode.IsSpace`, which `strings.TrimSpace` trims by: the Latin-1
spaces `\t \n \v \f \r`, space, U+0085, U+00A0, and the other code points with the
`White_Space` property. -/
def isSpace (c : Char) : Bool :=
  c.toNat == 0x09 || c.toNat == 0x0A || c.toNat == 0x0B || c.toNat == 0x0C ||
  c.toNat == 0x0D || c.toNat == 0x20 || c.toNat == 0x85 || c.toNat == 0xA0 ||
  c.toNat == 0x1680 || (0x2000 ≤ c.toNat && c.toNat ≤ 0x200A) ||
  c.toNat == 0x2028 || c.toNat == 0x2029 || c.toNat == 0x202F ||
  c.toNat == 0x205F || c.toNat == 0x3000

/-- The function `strings.TrimSpace`: removes leading and trailing white space. -/
def trimSpace (s : List Char) : List Char :=
  (s.dropWhile isSpace).rdropWhile isSpace

/-- The call `strings.Split(s, ",")`: the pieces of `s` between commas; a string
without a comma (also the empty string) gives one piece. -/
def split (s : List Char) : List (List Char) :=
  s.splitOn ','

/-- The digit test of `strconv.Atoi` (`ch -= '0'; if ch > 9`): ASCII digits only. -/
def isDigit (ch : Char) : Bool :=
  48 ≤ ch.toNat && ch.toNat ≤ 57

/-- The digit loop of `strconv.Atoi`: `n = n*10 + int(ch)`, failing on a
character that is not a digit. -/
def atoiDigits : Nat → List Char → Option Nat
  | n, [] => some n
  | n, ch :: rest =>
    if isDigit ch then atoiDigits (n * 10 + (ch.toNat - 48)) rest else none

/-- The largest Go `int` on a 64-bit platform. -/
def maxInt : Nat := 2 ^ 63 - 1

/-- The function `strconv.Atoi` on a 64-bit platform: an optional sign followed by
one or more ASCII digits; `none` stands for both the syntax error and the range
error (value outside `[-2^63, 2^63-1]`). -/
def atoi (s0 : List Char) : Option Int :=
  let neg : Bool := s0.head? == some '-'
  let s : List Char :=
    if s0.head? == some '-' || s0.head? == some '+' then s0.tail else s0
  if s.length < 1 then none
  else
    match atoiDigits 0 s with
    | none => none
    | some un =>
      if neg then
        if un > maxInt + 1 then none else some (-(un : Int))
      else
        if un > maxInt then none else some (un : Int)

/-! ## Data returned by the API client -/

/-- The fields of `spotify.SimplePlaylist` the program reads. -/
structure SimplePlaylist where
  id : String
  name : String
  total : Nat
  deriving DecidableEq, Repr

/-- A playlist item: `item.Track.Track` is either nil (`none`) or a track with an id. -/
structure PlaylistItem where
  track : Option String
  deriving DecidableEq, Repr

/-- The errors `RunE` returns to its caller. -/
inductive RunError where
  /-- The error `invalid index: %s` (the token is not accepted by `Atoi`). -/
  | invalidToken (indexStr : List Char)
  /-- The error `invalid index: %d` (the parsed index is out of range). -/
  | invalidIndex (index : Int)
  deriving DecidableEq, Repr

/-- A Go slice index expression `xs[index]` with an `int` index: `none` stands
for the run-time panic of an index out of range. -/
def indexAt {α : Type} (xs : List α) (index : Int) : Option α :=
  if index < 0 then none else xs[index.toNat]?

/-- A Go slice expression `xs[lo:hi]` with `lo ≤ hi ≤ len(xs)`. -/
def slice {α : Type} (xs : List α) (lo hi : Nat) : List α :=
  (xs.take hi).drop lo

/-! ## Selection parsing (lines 106-124) -/

/-- How a part of the run hands over to the next one: with a value, or by ending
the run. -/
inductive Outcome where
  /-- The call `os.Exit(0)` at the end of the command. -/
  | exit0
  /-- The call `log.Fatal(err)` after a failed request: the process exits with status 1. -/
  | fatal (err : String)
  /-- The command returns `err` to `rootCmd.Execute`, whose caller logs it and exits
  with status 1. -/
  | returned (err : RunError)
  /-- A run-time panic (index out of range). -/
  | panic
  /-- The paging loop did not finish within the fuel given to the model. -/
  | outOfFuel
  deriving DecidableEq, Repr

/-- Either the value a part of the run computes, or the way the run ended in it. -/
inductive Res (α : Type) where
  | next (a : α)
  | stop (o : Outcome)
  deriving DecidableEq, Repr

/-- The body of `for _, indexStr := range selectedIndicesSplit`, started with the
indices appended so far. -/
def selectLoop (playlists : List SimplePlaylist) :
    List (List Char) → List Int → Res (List Int)
  | [], selectedIndices => .next selectedIndices
  | indexStr :: rest, selectedIndices =>
    match atoi (trimSpace indexStr) with
    | none => .stop (.returned (.invalidToken indexStr))
    | some index =>
      let selectedIndices := selectedIndices ++ [index]
      if index < 0 ∨ index > (playlists.length : Int) - 1 then
        .stop (.returned (.invalidIndex index))
      else
        match indexAt playlists index with
        | none => .stop .panic
        | some _ => selectLoop playlists rest selectedIndices

/-- Lines 106-124: split the input at commas and run the loop from an empty
`selectedIndices`. -/
def parseSelection (playlists : List SimplePlaylist) (selectedIndicedStr : List Char) :
    Res (List Int) :=
  selectLoop playlists (split selectedIndicedStr) []

/-! ## The API client -/

/-- The fields of the current user the program reads. -/
structure User where
  id : String
  displayName : String
  deriving DecidableEq, Repr

/-- The requests the program sends through the client.  The two booleans of
`createPlaylistForUser` are, in the order of the parameters of the library
function `CreatePlaylistForUser(ctx, userID, playlistName, description, public,
collaborative)`, `public` and `collaborative`. -/
inductive Request where
  | currentUser
  | getPlaylistsForUser (userID : String)
  | createPlaylistForUser (userID playlistName description : String)
      (isPublic collaborative : Bool)
  | getPlaylistItems (playlistID : String) (offset limit : Nat)
  | addTracksToPlaylist (playlistID : String) (trackIDs : List String)
  deriving DecidableEq, Repr

/-- The remote service behind the client, with a state of its own: each request
returns an answer or an error, and the next state. -/
structure Client (σ : Type) where
  currentUser : σ → Except String User × σ
  getPlaylistsForUser : String → σ → Except String (List SimplePlaylist) × σ
  createPlaylistForUser : String → String → String → Bool → Bool → σ →
    Except String String × σ
  getPlaylistItems : String → Nat → Nat → σ → Except String (List PlaylistItem) × σ
  addTracksToPlaylist : String → List String → σ → Except String Unit × σ

/-- The state of the remote service and the requests sent so far, oldest first. -/
structure World (σ : Type) where
  remote : σ
  requests : List Request

/-! ## Fetching the tracks (lines 137-161) -/

/-- The loop `for _, item := range items.Items`: appends the id of every item that
has a track. -/
def appendTracks (allTracks : List String) (items : List PlaylistItem) : List String :=
  items.foldl
    (fun acc item =>
      match item.track with
      | some id => acc ++ [id]
      | none => acc)
    allTracks

/-- The loop `for { ... }` of one playlist: request the page at `offset`, append its
tracks, leave when the page is shorter than `limit`, else move on by `limit`.
A failed request ends the run (`log.Fatal`). -/
def pageLoop {σ : Type} (c : Client σ) (playlistID : String) (limit : Nat) :
    Nat → Nat → List String → World σ → Res (List String) × World σ
  | 0, _, _, w => (.stop .outOfFuel, w)
  | fuel + 1, offset, allTracks, w =>
    let r := c.getPlaylistItems playlistID offset limit w.remote
    let w1 : World σ := ⟨r.2, w.requests ++ [.getPlaylistItems playlistID offset limit]⟩
    match r.1 with
    | .error err => (.stop (.fatal err), w1)
    | .ok items =>
      let allTracks := appendTracks allTracks items
      if items.length < limit then (.next allTracks, w1)
      else pageLoop c playlistID limit fuel (offset + limit) allTracks w1

/-- The loop `for _, index := range selectedIndices`: page through each selected
playlist with `offset := 0` and `limit := 100`. -/
def fetchLoop {σ : Type} (c : Client σ) (fuel : Nat) (playlists : List SimplePlaylist) :
    List Int → List String → World σ → Res (List String) × World σ
  | [], allTracks, w => (.next allTracks, w)
  | index :: rest, allTracks, w =>
    match indexAt playlists index with
    | none => (.stop .panic, w)
    | some playlist =>
      match pageLoop c playlist.id 100 fuel 0 allTracks w with
      | (.next allTracks, w1) => fetchLoop c fuel playlists rest allTracks w1
      | (.stop o, w1) => (.stop o, w1)

/-! ## Shuffling (line 164) -/

/-- The closure passed to `rand.Shuffle`:
`allTracks[i], allTracks[j] = allTracks[j], allTracks[i]`; `none` stands for the
panic of an index out of range. -/
def swap {α : Type} (allTracks : List α) (i j : Nat) : Option (List α) :=
  match allTracks[i]?, allTracks[j]? with
  | some x, some y => some ((allTracks.set i y).set j x)
  | _, _ => none

/-- The loop of the library function `rand.Shuffle(n, swap)` (Fisher-Yates):
`for i := n - 1; i > 0; i-- { j := r.int31n(i + 1); swap(i, j) }`, here from a
given `i` down to 1.  `draw i` is the number the random source returns in the
round of `i`; the library guarantees `draw i ≤ i`. -/
def shuffleLoop {α : Type} (draw : Nat → Nat) : Nat → List α → Option (List α)
  | 0, allTracks => some allTracks
  | i + 1, allTracks =>
    match swap allTracks (i + 1) (draw (i + 1)) with
    | none => none
    | some allTracks => shuffleLoop draw i allTracks

/-- The call `rand.Shuffle(len(allTracks), swap)`. -/
def shuffle {α : Type} (draw : Nat → Nat) (allTracks : List α) : Option (List α) :=
  shuffleLoop draw (allTracks.length - 1) allTracks

/-! ## Writing in batches (lines 168-186) -/

/-- The constant `batchSize := 20`. -/
def batchSize : Nat := 20

/-- The loop `for i := 0; i < len(allTracks); i += batchSize`, from a given `i` and
counter: the slice `allTracks[i:end]` is sent with one request, whose error is
only printed, and the counter goes up either way. -/
def writeLoop {σ : Type} (c : Client σ) (playlistID : String) (allTracks : List String)
    (i successfulAdditions : Nat) (w : World σ) : Nat × World σ :=
  if i < allTracks.length then
    let stop := if i + batchSize > allTracks.length then allTracks.length else i + batchSize
    let tracks := slice allTracks i stop
    let r := c.addTracksToPlaylist playlistID tracks w.remote
    writeLoop c playlistID allTracks (i + batchSize) (successfulAdditions + 1)
      ⟨r.2, w.requests ++ [.addTracksToPlaylist playlistID tracks]⟩
  else (successfulAdditions, w)
termination_by allTracks.length - i
decreasing_by simp only [batchSize]; omega

/-! ## The command (lines 86-193) -/

/-- The description given to the new playlist. -/
def description : String :=
  "Playlist mixed by https://github.com/howdydev/spotify-playlist-mixer"

/-- What is left of a run: how it ended, the value of `successfulAdditions` (0 when
the write loop was not reached), and the world. -/
structure Run (σ : Type) where
  outcome : Outcome
  successfulAdditions : Nat
  world : World σ

/-- Lines 137-191, from the creation of the new playlist on: fetch the tracks of the
selected playlists, shuffle them, write them in batches, and exit. -/
def mixTracks {σ : Type} (c : Client σ) (fuel : Nat) (playlists : List SimplePlaylist)
    (selectedIndices : List Int) (newPlaylistID : String) (draw : Nat → Nat)
    (w : World σ) : Run σ :=
  match fetchLoop c fuel playlists selectedIndices [] w with
  | (.stop o, w4) => ⟨o, 0, w4⟩
  | (.next allTracks, w4) =>
    match shuffle draw allTracks with
    | none => ⟨.panic, 0, w4⟩
    | some allTracks =>
      let r5 := writeLoop c newPlaylistID allTracks 0 0 w4
      ⟨.exit0, r5.1, r5.2⟩

/-- The command from the construction of the client on.  `selectedIndicedStr` and
`newPlaylistName` are the values the two `fmt.Scanln` calls store, `draw` is the
outcome of the random source, `fuel` bounds the number of pages per playlist. -/
def mixer {σ : Type} (c : Client σ) (fuel : Nat) (selectedIndicedStr : List Char)
    (newPlaylistName : String) (draw : Nat → Nat) (remote : σ) : Run σ :=
  let r1 := c.currentUser remote
  let w1 : World σ := ⟨r1.2, [.currentUser]⟩
  match r1.1 with
  | .error err => ⟨.fatal err, 0, w1⟩
  | .ok user =>
    let r2 := c.getPlaylistsForUser user.id w1.remote
    let w2 : World σ := ⟨r2.2, w1.requests ++ [.getPlaylistsForUser user.id]⟩
    match r2.1 with
    | .error err => ⟨.fatal err, 0, w2⟩
    | .ok playlists =>
      match parseSelection playlists selectedIndicedStr with
      | .stop o => ⟨o, 0, w2⟩
      | .next selectedIndices =>
        let r3 := c.createPlaylistForUser user.id newPlaylistName description false false
          w2.remote
        let w3 : World σ := ⟨r3.2, w2.requests ++
          [.createPlaylistForUser user.id newPlaylistName description false false]⟩
        match r3.1 with
        | .error err => ⟨.fatal err, 0, w3⟩
        | .ok newPlaylistID =>
          mixTracks c fuel playlists selectedIndices newPlaylistID draw w3

/-! ## The callback handler and the hand-over of the token (lines 61-84) -/

/-- A request to `/callback`: the parameters of the URL query, and the parameters of
a form body (empty for a GET request), each in order of appearance. -/
structure CallbackRequest where
  query : List (String × String)
  postForm : List (String × String)
  deriving DecidableEq, Repr

/-- The first value of a key, or the empty string (`url.Values.Get`). -/
def firstValue (params : List (String × String)) (key : String) : String :=
  match params.find? (fun p => p.1 == key) with
  | some p => p.2
  | none => ""

/-- The expression `r.URL.Query().Get(key)`. -/
def queryGet (r : CallbackRequest) (key : String) : String :=
  firstValue r.query key

/-- The expression `r.FormValue(key)`: body parameters take precedence over the
URL query. -/
def formValue (r : CallbackRequest) (key : String) : String :=
  firstValue (r.postForm ++ r.query) key

/-- An OAuth2 token. -/
structure Token where
  accessToken : String
  deriving DecidableEq, Repr

/-- The library method `Authenticator.Token(ctx, state, r)` of `spotifyauth`, by
its documented behaviour: it reads `error`, `code` and `state` from the URL query,
refuses a state other than the expected `state`, and else exchanges the code
(`exchange` stands for the token endpoint). -/
def libraryToken (exchange : String → Except String Token) (state : String)
    (r : CallbackRequest) : Except String Token :=
  if queryGet r "error" ≠ "" then .error "spotify: auth failed"
  else if queryGet r "code" = "" then .error "spotify: didn't get access code"
  else if queryGet r "state" ≠ state then
    .error "spotify: redirect state parameter doesn't match"
  else exchange (queryGet r "code")

/-- How the handler ends: with `log.Fatal`, which ends the process, or with the
token sent on the channel `ch`. -/
inductive HandlerEnd where
  | fatal (err : String)
  | sent (token : Token)
  deriving DecidableEq, Repr

/-- What the handler did: the answer of `auth.Token`, and how it ended. -/
structure HandlerRun where
  exchanged : Except String Token
  ending : HandlerEnd
  deriving DecidableEq, Repr

/-- The handler of `/callback` (lines 61-73).  `authToken` is the method
`auth.Token`; the handler calls it with the state of the request itself as the
expected state, and compares the state with `"state-string"` afterwards. -/
def callbackHandler (authToken : String → CallbackRequest → Except String Token)
    (r : CallbackRequest) : HandlerRun :=
  let res := authToken (queryGet r "state") r
  match res with
  | .error err => ⟨res, .fatal err⟩
  | .ok token =>
    if formValue r "state" ≠ "state-string" then ⟨res, .fatal "State mismatch"⟩
    else ⟨res, .sent token⟩

/-- Lines 81-84 for a run that receives one callback request: the main flow
builds the client from the token it receives on `ch`; `none` when the
process ended in the handler. -/
def receiveToken (authToken : String → CallbackRequest → Except String Token)
    (r : CallbackRequest) : Option Token :=
  match (callbackHandler authToken r).ending with
  | .sent token => some token
  | .fatal _ => none

/-! ## Notions the statements below are written with -/

/-- The value of a string of decimal digits, most significant digit first. -/
def decimalValue (ds : List Char) : Nat :=
  Nat.ofDigits 10 (ds.reverse.map (fun ch => ch.toNat - 48))

/-- A decimal numeral and its value: an optional sign `+` or `-` followed by
one or more ASCII digits. -/
def IsNumeral (s : List Char) (v : Int) : Prop :=
  ∃ ds : List Char, ds ≠ [] ∧ (∀ ch ∈ ds, ch.isDigit = true) ∧
    ((s = ds ∧ v = (decimalValue ds : Int)) ∨
     (s = '+' :: ds ∧ v = (decimalValue ds : Int)) ∨
     (s = '-' :: ds ∧ v = -(decimalValue ds : Int)))

/-- One token of a well-formed selection: white space, leading zeros, the decimal
digits of an index, white space. -/
structure SelectionToken where
  before : List Char
  zeros : Nat
  index : Nat
  after : List Char

/-- The text of a token. -/
def SelectionToken.text (t : SelectionToken) : List Char :=
  t.before ++ (List.replicate t.zeros '0' ++ (Nat.toDigits 10 t.index ++ t.after))

/-- The ids of the tracks of a list of items, in order, items without a track left
out. -/
def trackIDs (items : List PlaylistItem) : List String :=
  items.filterMap (fun item => item.track)

/-- A paginated source: the remote service holds the items `source id` of each
playlist and answers a request `(offset, limit)` with
`items[offset : min(offset+limit, N)]`. -/
def IsPaginated {σ : Type} (c : Client σ) (source : String → List PlaylistItem) : Prop :=
  ∀ (playlistID : String) (offset limit : Nat) (s : σ),
    (c.getPlaylistItems playlistID offset limit s).1 =
      .ok (slice (source playlistID) offset (min (offset + limit) (source playlistID).length))

/-- Whether a request is an add-tracks request. -/
def isAddTracks : Request → Bool
  | .addTracksToPlaylist _ _ => true
  | _ => false

/-- Whether a request is a page request. -/
def isGetItems : Request → Bool
  | .getPlaylistItems _ _ _ => true
  | _ => false

/-- Whether a request changes something at the remote service. -/
def isMutating : Request → Bool
  | .createPlaylistForUser _ _ _ _ _ => true
  | .addTracksToPlaylist _ _ => true
  | _ => false

/-- The client `c` with other answers to the add-tracks requests: `add` decides
which of them succeed and which fail, and how they change the remote state. -/
def withAddTracks {σ : Type} (c : Client σ)
    (add : String → List String → σ → Except String Unit × σ) : Client σ :=
  { c with addTracksToPlaylist := add }

/-- The answer of a remote service on which every add-tracks request succeeds. -/
def addSucceeds {σ : Type} (_playlistID : String) (_trackIDs : List String) (s : σ) :
    Except String Unit × σ :=
  (.ok (), s)

/-- The client `c` on a remote state that also keeps a record of the page requests
answered with an error, each with its error, oldest first.  The answers and the
state of `c` are untouched. -/
def recording {σ : Type} (c : Client σ) : Client (σ × List (Request × String)) where
  currentUser := fun s => ((c.currentUser s.1).1, ((c.currentUser s.1).2, s.2))
  getPlaylistsForUser := fun userID s =>
    ((c.getPlaylistsForUser userID s.1).1, ((c.getPlaylistsForUser userID s.1).2, s.2))
  createPlaylistForUser := fun userID playlistName descr isPublic collaborative s =>
    ((c.createPlaylistForUser userID playlistName descr isPublic collaborative s.1).1,
      ((c.createPlaylistForUser userID playlistName descr isPublic collaborative s.1).2, s.2))
  getPlaylistItems := fun playlistID offset limit s =>
    ((c.getPlaylistItems playlistID offset limit s.1).1,
      ((c.getPlaylistItems playlistID offset limit s.1).2,
        match (c.getPlaylistItems playlistID offset limit s.1).1 with
        | .error err => s.2 ++ [(Request.getPlaylistItems playlistID offset limit, err)]
        | .ok _ => s.2))
  addTracksToPlaylist := fun playlistID trackIDs s =>
    ((c.addTracksToPlaylist playlistID trackIDs s.1).1,
      ((c.addTracksToPlaylist playlistID trackIDs s.1).2, s.2))

/-- The page requests of a run that the remote service answered with an error, each
with its error, in the order they were sent. -/
def failedPageRequests {σ : Type} (c : Client σ) (fuel : Nat) (selectedIndicedStr : List Char)
    (newPlaylistName : String) (draw : Nat → Nat) (remote : σ) : List (Request × String) :=
  (mixer (recording c) fuel selectedIndicedStr newPlaylistName draw (remote, [])).world.remote.2

/-- The answer of a remote service on which every add-tracks request fails. -/
def addFails {σ : Type} (_playlistID : String) (_trackIDs : List String) (s : σ) :
    Except String Unit × σ :=
  (.error "add: request failed", s)

/-! ## Remote services used as concrete inputs -/

/-- A remote service without state: one user, the given playlists and items, paged
as slices; creating a playlist and adding tracks succeed unless `failItems`,
`failAdd` say otherwise. -/
def simpleClient (playlists : List SimplePlaylist) (source : String → List PlaylistItem)
    (failItems failAdd : Bool) : Client Unit where
  currentUser := fun s => (.ok ⟨"u", "User"⟩, s)
  getPlaylistsForUser := fun _ s => (.ok playlists, s)
  createPlaylistForUser := fun _ _ _ _ _ s => (.ok "new", s)
  getPlaylistItems := fun playlistID offset limit s =>
    if failItems then (.error "items: request failed", s)
    else (.ok (slice (source playlistID) offset
      (min (offset + limit) (source playlistID).length)), s)
  addTracksToPlaylist := fun _ _ s =>
    if failAdd then (.error "add: request failed", s) else (.ok (), s)

/-- The remote service of `simpleClient`, except that it rejects a playlist
without a name. -/
def strictClient (playlists : List SimplePlaylist) (source : String → List PlaylistItem) :
    Client Unit where
  currentUser := fun s => (.ok ⟨"u", "User"⟩, s)
  getPlaylistsForUser := fun _ s => (.ok playlists, s)
  createPlaylistForUser := fun _ playlistName _ _ _ s =>
    if playlistName = "" then (.error "create: missing name", s) else (.ok "new", s)
  getPlaylistItems := fun playlistID offset limit s =>
    (.ok (slice (source playlistID) offset
      (min (offset + limit) (source playlistID).length)), s)
  addTracksToPlaylist := fun _ _ s => (.ok (), s)

/-- A token endpoint that knows one code. -/
def demoExchange (code : String) : Except String Token :=
  if code = "good-code" then .ok ⟨"access"⟩ else .error "oauth2: cannot fetch token"

/-- A GET request to `/callback` with a code the token endpoint accepts and a state
that is not the nonce the program issued. -/
def forgedRequest : CallbackRequest :=
  ⟨[("code", "good-code"), ("state", "forged")], []⟩

/-- A POST request to `/callback` whose URL carries the state `forged` and whose
form body carries the state `state-string`. -/
def bodyStateRequest : CallbackRequest :=
  ⟨[("code", "good-code"), ("state", "forged")], [("state", "state-string")]⟩

/-- A source in which every playlist holds exactly one full page of 100 items. -/
def fullPageSource (_playlistID : String) : List PlaylistItem :=
  List.replicate 100 ⟨some "t"⟩

/-- Two playlists, of three and two items; the second item of the first has no
track. -/
def demoPlaylists : List SimplePlaylist :=
  [⟨"p0", "First", 3⟩, ⟨"p1", "Second", 2⟩]

/-- The items of the playlists of `demoPlaylists`. -/
def demoSource (playlistID : String) : List PlaylistItem :=
  if playlistID = "p0" then [⟨some "a"⟩, ⟨none⟩, ⟨some "b"⟩]
  else if playlistID = "p1" then [⟨some "c"⟩, ⟨some "d"⟩]
  else []

/-! ## Characters and digits -/

theorem isDigit_not_isSpace (ch : Char) (h : isDigit ch = true) : isSpace ch = false := by
  simp only [isDigit, Bool.and_eq_true, decide_eq_true_eq] at h
  simp only [isSpace, Bool.or_eq_false_iff, Bool.and_eq_false_iff, beq_eq_false_iff_ne, ne_eq,
    decide_eq_false_iff_not]
  omega

theorem isDigit_ne_comma (ch : Char) (h : isDigit ch = true) : ch ≠ ',' := by
  rintro rfl
  revert h
  decide

theorem isSpace_ne_comma (ch : Char) (h : isSpace ch = true) : ch ≠ ',' := by
  rintro rfl
  revert h
  decide

theorem isDigit_ne_sign (ch : Char) (h : isDigit ch = true) : ch ≠ '-' ∧ ch ≠ '+' := by
  constructor <;>
  · rintro rfl
    revert h
    decide

theorem digitChar_spec (k : Nat) (hk : k < 10) :
    isDigit (Nat.digitChar k) = true ∧ (Nat.digitChar k).toNat - 48 = k := by
  interval_cases k <;> decide

theorem isDigit_zero : isDigit '0' = true := by decide

/-! ## `strconv.Atoi` on decimal numerals -/

theorem atoiDigits_zeros (z m : Nat) (rest : List Char) :
    atoiDigits m (List.replicate z '0' ++ rest) = atoiDigits (m * 10 ^ z) rest := by
  induction z generalizing m with
  | zero => simp
  | succ z ih =>
    have h0 : ('0' : Char).toNat - 48 = 0 := by decide
    rw [List.replicate_succ, List.cons_append, atoiDigits, if_pos isDigit_zero, ih, h0]
    congr 1
    ring

theorem toDigitsCore_acc (fuel : Nat) :
    ∀ (n : Nat) (acc : List Char),
      Nat.toDigitsCore 10 fuel n acc = Nat.toDigitsCore 10 fuel n [] ++ acc := by
  induction fuel with
  | zero => intro n acc; rfl
  | succ fuel ih =>
    intro n acc
    rw [Nat.toDigitsCore, Nat.toDigitsCore]
    by_cases hq : n / 10 = 0
    · simp [hq]
    · simp only [hq, if_false]
      rw [ih (n / 10) (Nat.digitChar (n % 10) :: acc), ih (n / 10) [Nat.digitChar (n % 10)]]
      simp

/-- The digit loop of `Atoi` reads the decimal digits of `n` back as `n`. -/
theorem atoiDigits_toDigitsCore (fuel : Nat) :
    ∀ n : Nat, n < fuel →
      Nat.toDigitsCore 10 fuel n [] ≠ [] ∧
      (∀ ch ∈ Nat.toDigitsCore 10 fuel n [], isDigit ch = true) ∧
      ∀ (m : Nat) (rest : List Char),
        atoiDigits m (Nat.toDigitsCore 10 fuel n [] ++ rest) =
          atoiDigits (m * 10 ^ (Nat.toDigitsCore 10 fuel n []).length + n) rest := by
  induction fuel with
  | zero => intro n h; omega
  | succ fuel ih =>
    intro n hn
    have hd := digitChar_spec (n % 10) (Nat.mod_lt _ (by decide))
    rw [Nat.toDigitsCore]
    by_cases hq : n / 10 = 0
    · simp only [hq, if_true]
      refine ⟨by simp, ?_, ?_⟩
      · intro ch hch
        rw [List.mem_singleton] at hch
        rw [hch]
        exact hd.1
      · intro m rest
        rw [List.singleton_append, atoiDigits, if_pos hd.1, hd.2]
        congr 1
        simp only [List.length_singleton, pow_one]
        omega
    · simp only [hq, if_false]
      rw [toDigitsCore_acc]
      obtain ⟨_, hdig, hval⟩ := ih (n / 10) (by omega)
      refine ⟨by simp, ?_, ?_⟩
      · intro ch hch
        rw [List.mem_append, List.mem_singleton] at hch
        rcases hch with hch | hch
        · exact hdig ch hch
        · rw [hch]; exact hd.1
      · intro m rest
        rw [List.append_assoc, hval, List.singleton_append, atoiDigits, if_pos hd.1, hd.2]
        congr 1
        rw [List.length_append, List.length_singleton, pow_succ]
        nlinarith [Nat.div_add_mod n 10]

/-- The digits of a token: leading zeros and the decimal digits of the index. -/
theorem token_digits (z v : Nat) :
    ∃ ds : List Char, List.replicate z '0' ++ Nat.toDigits 10 v = ds ∧ ds ≠ [] ∧
      (∀ ch ∈ ds, isDigit ch = true) ∧ atoiDigits 0 ds = some v := by
  have hcore := atoiDigits_toDigitsCore (v + 1) v (Nat.lt_succ_self v)
  have hrepr : Nat.toDigits 10 v = Nat.toDigitsCore 10 (v + 1) v [] := rfl
  rw [← hrepr] at hcore
  obtain ⟨hne, hdig, hval⟩ := hcore
  refine ⟨_, rfl, by simp [hne], ?_, ?_⟩
  · intro ch hch
    rw [List.mem_append] at hch
    rcases hch with hch | hch
    · rw [List.eq_of_mem_replicate hch]; exact isDigit_zero
    · exact hdig ch hch
  · rw [atoiDigits_zeros]
    have := hval (0 * 10 ^ z) []
    rw [List.append_nil] at this
    rw [this]
    simp [atoiDigits]

theorem atoi_of_digits (ds : List Char) (v : Nat) (hne : ds ≠ [])
    (hdig : ∀ ch ∈ ds, isDigit ch = true) (hval : atoiDigits 0 ds = some v)
    (hv : v ≤ maxInt) : atoi ds = some (v : Int) := by
  cases ds with
  | nil => exact absurd rfl hne
  | cons d rest =>
    have hd := isDigit_ne_sign d (hdig d (List.mem_cons_self _ _))
    have h1 : ((d :: rest).head? == some '-') = false := by
      simp [hd.1]
    have h2 : ((d :: rest).head? == some '+') = false := by
      simp [hd.2]
    simp only [atoi, h1, h2, Bool.or_self, Bool.false_eq_true, if_false, hval,
      List.length_cons]
    have h3 : ¬ (rest.length + 1 < 1) := by omega
    have h4 : ¬ (v > maxInt) := by omega
    simp [h3, h4]

/-! ## `strings.TrimSpace` and `strings.Split` on well-formed tokens -/

theorem trimSpace_token (before ds after : List Char) (hne : ds ≠ [])
    (hdig : ∀ ch ∈ ds, isDigit ch = true) (hb : ∀ ch ∈ before, isSpace ch = true)
    (ha : ∀ ch ∈ after, isSpace ch = true) :
    trimSpace (before ++ (ds ++ after)) = ds := by
  have hfirst : List.dropWhile isSpace (ds ++ after) = ds ++ after := by
    cases ds with
    | nil => exact absurd rfl hne
    | cons d rest =>
      have := isDigit_not_isSpace d (hdig d (List.mem_cons_self _ _))
      simp [List.dropWhile, this]
  have hlast : List.rdropWhile isSpace ds = ds := by
    rw [List.rdropWhile_eq_self_iff]
    intro hl
    have := isDigit_not_isSpace _ (hdig _ (List.getLast_mem hl))
    simp [this]
  have hafter : ∀ (after : List Char), (∀ ch ∈ after, isSpace ch = true) →
      List.rdropWhile isSpace (ds ++ after) = ds := by
    intro after
    induction after using List.reverseRecOn with
    | nil => intro _; simpa using hlast
    | append_singleton l a ih =>
      intro h
      rw [← List.append_assoc, List.rdropWhile_concat_pos _ _ _ (h a (by simp))]
      exact ih (fun ch hch => h ch (by simp [hch]))
  rw [trimSpace, List.dropWhile_append_of_pos hb, hfirst]
  exact hafter after ha

theorem text_no_comma (t : SelectionToken) (hb : ∀ ch ∈ t.before, isSpace ch = true)
    (ha : ∀ ch ∈ t.after, isSpace ch = true) : ',' ∉ t.text := by
  obtain ⟨ds, hds, _, hdig, _⟩ := token_digits t.zeros t.index
  intro hmem
  rw [SelectionToken.text, ← List.append_assoc (List.replicate t.zeros '0'), hds,
    List.mem_append, List.mem_append] at hmem
  rcases hmem with h | h | h
  · exact isSpace_ne_comma _ (hb _ h) rfl
  · exact isDigit_ne_comma _ (hdig _ h) rfl
  · exact isSpace_ne_comma _ (ha _ h) rfl

theorem indexAt_of_lt {α : Type} (xs : List α) (i : Nat) (h : i < xs.length) :
    indexAt xs (i : Int) = some (xs.get ⟨i, h⟩) := by
  have : ¬ ((i : Int) < 0) := by omega
  simp [indexAt, this, List.getElem?_eq_getElem h]

theorem selectLoop_tokens (playlists : List SimplePlaylist) (hlen : playlists.length ≤ maxInt)
    (toks : List SelectionToken) :
    (∀ t ∈ toks, (∀ ch ∈ t.before, isSpace ch = true) ∧ (∀ ch ∈ t.after, isSpace ch = true) ∧
      t.index < playlists.length) →
    ∀ acc : List Int, selectLoop playlists (toks.map SelectionToken.text) acc =
      .next (acc ++ toks.map (fun t => (t.index : Int))) := by
  induction toks with
  | nil => intro _ acc; simp [selectLoop]
  | cons t rest ih =>
    intro h acc
    obtain ⟨hb, ha, hidx⟩ := h t (List.mem_cons_self _ _)
    obtain ⟨ds, hds, hne, hdig, hval⟩ := token_digits t.zeros t.index
    have htrim : trimSpace t.text = ds := by
      rw [SelectionToken.text, ← List.append_assoc (List.replicate t.zeros '0'), hds]
      exact trimSpace_token _ _ _ hne hdig hb ha
    have hatoi : atoi (trimSpace t.text) = some (t.index : Int) := by
      rw [htrim]
      exact atoi_of_digits ds t.index hne hdig hval (by omega)
    have hrange : ¬ ((t.index : Int) < 0 ∨ (t.index : Int) > (playlists.length : Int) - 1) := by
      omega
    rw [List.map_cons, selectLoop, hatoi]
    simp only [hrange, if_false, indexAt_of_lt playlists t.index hidx]
    rw [ih (fun t ht => h t (List.mem_cons_of_mem _ ht))]
    simp

/-- C1. Selection parsing, valid input: for every displayed playlist sequence (of a
length that fits a Go `int`) and every selection string that is a comma-separated
list of one or more tokens, each made of white space, a decimal non-negative
integer (leading zeros allowed) below the number of playlists, and white space, the
parsing loop finishes without error and `selectedIndices` is exactly the list of
these integers, in input order, duplicates kept. -/
theorem parseSelection_valid (playlists : List SimplePlaylist)
    (hlen : playlists.length ≤ maxInt) (toks : List SelectionToken) (hne : toks ≠ [])
    (hspace : ∀ t ∈ toks, (∀ ch ∈ t.before, isSpace ch = true) ∧
      (∀ ch ∈ t.after, isSpace ch = true))
    (hrange : ∀ t ∈ toks, t.index < playlists.length) :
    parseSelection playlists ([','].intercalate (toks.map SelectionToken.text)) =
      .next (toks.map (fun t => (t.index : Int))) := by
  have hsplit : split ([','].intercalate (toks.map SelectionToken.text)) =
      toks.map SelectionToken.text := by
    rw [split]
    apply List.splitOn_intercalate
    · intro l hl
      rw [List.mem_map] at hl
      obtain ⟨t, ht, rfl⟩ := hl
      exact text_no_comma t (hspace t ht).1 (hspace t ht).2
    · simpa using hne
  rw [parseSelection, hsplit,
    selectLoop_tokens playlists hlen toks
      (fun t ht => ⟨(hspace t ht).1, (hspace t ht).2, hrange t ht⟩)]
  simp

/-- C1, at the selection `" 1,0 ,01"` over two playlists. -/
theorem parseSelection_valid_witness :
    parseSelection demoPlaylists " 1,0 ,01".toList = .next [1, 0, 1] :=
  parseSelection_valid demoPlaylists (by decide)
    [⟨[' '], 0, 1, []⟩, ⟨[], 0, 0, [' ']⟩, ⟨[], 1, 1, []⟩] (by simp)
    (by decide) (by decide)

/-! ## What `strconv.Atoi` accepts -/

theorem isDigit_eq (ch : Char) : isDigit ch = ch.isDigit := by
  simp only [isDigit, Char.isDigit, Char.toNat, ge_iff_le, UInt32.le_def, Fin.le_def]
  rfl

theorem decimalValue_cons (d : Char) (ds : List Char) :
    decimalValue (d :: ds) = (d.toNat - 48) * 10 ^ ds.length + decimalValue ds := by
  simp only [decimalValue, List.reverse_cons, List.map_append, List.map_cons, List.map_nil,
    Nat.ofDigits_append, List.length_map, List.length_reverse, Nat.ofDigits_singleton]
  ring

theorem atoiDigits_value (ds : List Char) :
    ∀ (m u : Nat), atoiDigits m ds = some u →
      (∀ ch ∈ ds, isDigit ch = true) ∧ u = m * 10 ^ ds.length + decimalValue ds := by
  induction ds with
  | nil =>
    intro m u h
    simp only [atoiDigits, Option.some.injEq] at h
    simp [decimalValue, h]
  | cons d rest ih =>
    intro m u h
    rw [atoiDigits] at h
    by_cases hd : isDigit d = true
    · rw [if_pos hd] at h
      obtain ⟨hall, hu⟩ := ih _ _ h
      refine ⟨?_, ?_⟩
      · intro ch hch
        rcases List.mem_cons.mp hch with rfl | hch
        · exact hd
        · exact hall ch hch
      · rw [hu, decimalValue_cons, List.length_cons, pow_succ]
        ring
    · rw [if_neg hd] at h
      exact absurd h (by simp)

theorem atoi_minus (rest : List Char) :
    atoi ('-' :: rest) =
      if rest.length < 1 then none
      else
        match atoiDigits 0 rest with
        | none => none
        | some un => if un > maxInt + 1 then none else some (-(un : Int)) := by
  simp [atoi]

theorem atoi_plus (rest : List Char) :
    atoi ('+' :: rest) =
      if rest.length < 1 then none
      else
        match atoiDigits 0 rest with
        | none => none
        | some un => if un > maxInt then none else some (un : Int) := by
  simp [atoi]

theorem atoi_unsigned (s : List Char) (hm : s.head? ≠ some '-') (hp : s.head? ≠ some '+') :
    atoi s =
      if s.length < 1 then none
      else
        match atoiDigits 0 s with
        | none => none
        | some un => if un > maxInt then none else some (un : Int) := by
  simp [atoi, hm, hp]

/-- Whatever `Atoi` accepts is a decimal numeral, and the result is its value. -/
theorem atoi_sound (s : List Char) (v : Int) (h : atoi s = some v) : IsNumeral s v := by
  have key : ∀ (ds : List Char) (un : Nat), ¬ ds.length < 1 → atoiDigits 0 ds = some un →
      ds ≠ [] ∧ (∀ ch ∈ ds, ch.isDigit = true) ∧ un = decimalValue ds := by
    intro ds un hlen hun
    obtain ⟨hall, hu⟩ := atoiDigits_value ds 0 un hun
    refine ⟨?_, ?_, by simpa using hu⟩
    · rintro rfl; simp at hlen
    · intro ch hch; rw [← isDigit_eq]; exact hall ch hch
  by_cases hm : s.head? = some '-'
  · obtain ⟨rest, rfl⟩ : ∃ rest, s = '-' :: rest := by
      cases s with
      | nil => simp at hm
      | cons c rest => simp at hm; exact ⟨rest, by rw [hm]⟩
    rw [atoi_minus] at h
    split at h
    · exact absurd h (by simp)
    · rename_i hlen
      split at h
      · exact absurd h (by simp)
      · rename_i un hun
        split at h
        · exact absurd h (by simp)
        · obtain ⟨h1, h2, h3⟩ := key rest un hlen hun
          simp only [Option.some.injEq] at h
          exact ⟨rest, h1, h2, Or.inr (Or.inr ⟨rfl, by rw [← h, h3]⟩)⟩
  · by_cases hp : s.head? = some '+'
    · obtain ⟨rest, rfl⟩ : ∃ rest, s = '+' :: rest := by
        cases s with
        | nil => simp at hp
        | cons c rest => simp at hp; exact ⟨rest, by rw [hp]⟩
      rw [atoi_plus] at h
      split at h
      · exact absurd h (by simp)
      · rename_i hlen
        split at h
        · exact absurd h (by simp)
        · rename_i un hun
          split at h
          · exact absurd h (by simp)
          · obtain ⟨h1, h2, h3⟩ := key rest un hlen hun
            simp only [Option.some.injEq] at h
            exact ⟨rest, h1, h2, Or.inr (Or.inl ⟨rfl, by rw [← h, h3]⟩)⟩
    · rw [atoi_unsigned s hm hp] at h
      split at h
      · exact absurd h (by simp)
      · rename_i hlen
        split at h
        · exact absurd h (by simp)
        · rename_i un hun
          split at h
          · exact absurd h (by simp)
          · obtain ⟨h1, h2, h3⟩ := key s un hlen hun
            simp only [Option.some.injEq] at h
            exact ⟨s, h1, h2, Or.inl ⟨rfl, by rw [← h, h3]⟩⟩

/-- A numeral has one value. -/
theorem IsNumeral_unique (s : List Char) (v w : Int) (hv : IsNumeral s v)
    (hw : IsNumeral s w) : v = w := by
  obtain ⟨ds, hne, hdig, hcase⟩ := hv
  obtain ⟨es, hne2, hdig2, hcase2⟩ := hw
  have nosign : ∀ (xs : List Char), xs ≠ [] → (∀ ch ∈ xs, ch.isDigit = true) →
      ∀ ys : List Char, xs ≠ '+' :: ys ∧ xs ≠ '-' :: ys := by
    intro xs hxs hx ys
    constructor <;>
    · rintro rfl
      have := hx _ (List.mem_cons_self _ _)
      revert this
      decide
  rcases hcase with ⟨rfl, rfl⟩ | ⟨rfl, rfl⟩ | ⟨rfl, rfl⟩ <;>
    rcases hcase2 with ⟨h, rfl⟩ | ⟨h, rfl⟩ | ⟨h, rfl⟩
  · rw [h]
  · exact absurd h (nosign _ hne hdig _).1
  · exact absurd h (nosign _ hne hdig _).2
  · exact absurd h.symm (nosign _ hne2 hdig2 _).1
  · simp only [List.cons.injEq, true_and] at h; rw [h]
  · simp at h
  · exact absurd h.symm (nosign _ hne2 hdig2 _).2
  · simp at h
  · simp only [List.cons.injEq, true_and] at h; rw [h]

/-! ## Selection parsing, invalid input -/

theorem indexAt_in_range {α : Type} (xs : List α) (index : Int)
    (h : ¬ (index < 0 ∨ index > (xs.length : Int) - 1)) : ∃ x, indexAt xs index = some x := by
  have h0 : ¬ (index < 0) := fun h0 => h (Or.inl h0)
  have hlt : index.toNat < xs.length := by omega
  exact ⟨xs.get ⟨index.toNat, hlt⟩, by simp [indexAt, h0, List.getElem?_eq_getElem hlt]⟩

theorem selectLoop_invalid (playlists : List SimplePlaylist) (toks : List (List Char)) :
    (∃ tok ∈ toks, (¬ ∃ v, IsNumeral (trimSpace tok) v) ∨
      ∃ v, IsNumeral (trimSpace tok) v ∧ (v < 0 ∨ v > (playlists.length : Int) - 1)) →
    ∀ acc : List Int, ∃ err, selectLoop playlists toks acc = .stop (.returned err) := by
  induction toks with
  | nil => rintro ⟨tok, htok, _⟩; simp at htok
  | cons t rest ih =>
    rintro ⟨tok, htok, hbad⟩ acc
    rw [selectLoop]
    cases hat : atoi (trimSpace t) with
    | none => exact ⟨_, rfl⟩
    | some index =>
      simp only
      by_cases hr : index < 0 ∨ index > (playlists.length : Int) - 1
      · rw [if_pos hr]; exact ⟨_, rfl⟩
      · rw [if_neg hr]
        obtain ⟨x, hx⟩ := indexAt_in_range playlists index hr
        rw [hx]
        simp only
        apply ih
        rcases List.mem_cons.mp htok with rfl | hmem
        · exfalso
          have hnum := atoi_sound _ _ hat
          rcases hbad with hno | ⟨v, hv, hout⟩
          · exact hno ⟨index, hnum⟩
          · rw [IsNumeral_unique _ _ _ hv hnum] at hout
            exact hr hout
        · exact ⟨tok, hmem, hbad⟩

/-- C2. Selection parsing, invalid input: when the user and the playlists have been
fetched and some comma-separated token of the selection string is, after trimming
white space, not a decimal numeral or a numeral with a value outside
`[0, n-1]` (`n` the number of playlists), the parsing loop returns a validation
error, the command returns that error to its caller, and the only requests of the
whole run are the two reads made before: no page request for any token, no
create-playlist and no add-tracks request. -/
theorem mixer_invalid_selection {σ : Type} (c : Client σ) (fuel : Nat)
    (selectedIndicedStr : List Char) (newPlaylistName : String) (draw : Nat → Nat)
    (remote s1 s2 : σ) (user : User) (playlists : List SimplePlaylist)
    (huser : c.currentUser remote = (.ok user, s1))
    (hlist : c.getPlaylistsForUser user.id s1 = (.ok playlists, s2))
    (hbad : ∃ tok ∈ split selectedIndicedStr, (¬ ∃ v, IsNumeral (trimSpace tok) v) ∨
      ∃ v, IsNumeral (trimSpace tok) v ∧ (v < 0 ∨ v > (playlists.length : Int) - 1)) :
    ∃ err, parseSelection playlists selectedIndicedStr = .stop (.returned err) ∧
      (mixer c fuel selectedIndicedStr newPlaylistName draw remote).outcome = .returned err ∧
      (mixer c fuel selectedIndicedStr newPlaylistName draw remote).world.requests =
        [.currentUser, .getPlaylistsForUser user.id] ∧
      ∀ r ∈ (mixer c fuel selectedIndicedStr newPlaylistName draw remote).world.requests,
        isMutating r = false ∧ isGetItems r = false := by
  obtain ⟨err, herr⟩ := selectLoop_invalid playlists (split selectedIndicedStr) hbad []
  have hparse : parseSelection playlists selectedIndicedStr = .stop (.returned err) := herr
  have hrun : mixer c fuel selectedIndicedStr newPlaylistName draw remote =
      ⟨.returned err, 0, ⟨s2, [.currentUser, .getPlaylistsForUser user.id]⟩⟩ := by
    simp only [mixer, huser, hlist, hparse, List.singleton_append]
  refine ⟨err, hparse, by rw [hrun], by rw [hrun], ?_⟩
  rw [hrun]
  intro r hr
  simp only [List.mem_cons, List.mem_singleton, List.not_mem_nil, or_false] at hr
  rcases hr with rfl | rfl <;> exact ⟨rfl, rfl⟩

/-- C2, at the selection `"0,5"` over two playlists: the valid token `0` before
the bad one is not used either. -/
theorem mixer_invalid_selection_witness :
    ∃ err, parseSelection demoPlaylists "0,5".toList = .stop (.returned err) ∧
      (mixer (simpleClient demoPlaylists demoSource false false) 5 "0,5".toList "mix"
        (fun _ => 0) ()).outcome = .returned err ∧
      (mixer (simpleClient demoPlaylists demoSource false false) 5 "0,5".toList "mix"
        (fun _ => 0) ()).world.requests = [.currentUser, .getPlaylistsForUser "u"] ∧
      ∀ r ∈ (mixer (simpleClient demoPlaylists demoSource false false) 5 "0,5".toList "mix"
        (fun _ => 0) ()).world.requests, isMutating r = false ∧ isGetItems r = false :=
  mixer_invalid_selection (simpleClient demoPlaylists demoSource false false) 5 "0,5".toList
    "mix" (fun _ => 0) () () () ⟨"u", "User"⟩ demoPlaylists rfl rfl
    ⟨['5'], by decide, Or.inr ⟨5, ⟨['5'], by simp, by decide,
      Or.inl ⟨rfl, by simp [decimalValue]⟩⟩, Or.inr (by decide)⟩⟩

/-! ## Paging through a playlist -/

theorem appendTracks_eq (allTracks : List String) (items : List PlaylistItem) :
    appendTracks allTracks items = allTracks ++ trackIDs items := by
  rw [appendTracks, trackIDs]
  induction items generalizing allTracks with
  | nil => simp
  | cons item rest ih =>
    rw [List.foldl_cons, ih]
    cases h : item.track with
    | none => simp [List.filterMap_cons, h]
    | some id => simp [List.filterMap_cons, h]

theorem slice_page {α : Type} (xs : List α) (offset limit : Nat) :
    slice xs offset (min (offset + limit) xs.length) = (xs.drop offset).take limit := by
  rw [slice, List.take_drop]
  congr 1
  rcases Nat.le_total (offset + limit) xs.length with h | h
  · rw [Nat.min_eq_left h, Nat.add_comm]
  · rw [Nat.min_eq_right h, List.take_length]
    exact (List.take_of_length_le (by omega)).symm

/-- The paging loop over a paginated source, from an offset within the source: it
ends after `(N - offset) / limit + 1` requests, having appended the tracks from
`offset` on. -/
theorem pageLoop_paginated {σ : Type} (c : Client σ) (source : String → List PlaylistItem)
    (hsrc : IsPaginated c source) (playlistID : String) (limit : Nat) (hlimit : 0 < limit)
    (fuel : Nat) :
    ∀ (offset : Nat) (allTracks : List String) (w : World σ),
      offset ≤ (source playlistID).length →
      ((source playlistID).length - offset) / limit + 1 ≤ fuel →
      ∃ s : σ, pageLoop c playlistID limit fuel offset allTracks w =
        (.next (allTracks ++ trackIDs ((source playlistID).drop offset)),
          ⟨s, w.requests ++
            (List.range (((source playlistID).length - offset) / limit + 1)).map
              (fun k => Request.getPlaylistItems playlistID (offset + limit * k) limit)⟩) := by
  induction fuel with
  | zero => intro offset allTracks w _ h; exact absurd h (Nat.not_succ_le_zero _)
  | succ fuel ih =>
    intro offset allTracks w hoff hfuel
    have hans := hsrc playlistID offset limit w.remote
    rw [slice_page] at hans
    rw [pageLoop]
    simp only [hans, appendTracks_eq]
    have hlen : (List.take limit (List.drop offset (source playlistID))).length =
        min limit ((source playlistID).length - offset) := by
      rw [List.length_take, List.length_drop]
    by_cases hshort : (source playlistID).length - offset < limit
    · have h1 : (List.take limit (List.drop offset (source playlistID))).length < limit := by
        rw [hlen]; exact lt_of_le_of_lt (Nat.min_le_right _ _) hshort
      have h2 : List.take limit (List.drop offset (source playlistID)) =
          List.drop offset (source playlistID) := by
        apply List.take_of_length_le
        rw [List.length_drop]; omega
      have h3 : ((source playlistID).length - offset) / limit = 0 :=
        Nat.div_eq_of_lt hshort
      rw [if_pos h1, h2, h3]
      exact ⟨(c.getPlaylistItems playlistID offset limit w.remote).2,
        by simp [List.range_succ]⟩
    · have h1 : ¬ (List.take limit (List.drop offset (source playlistID))).length < limit := by
        rw [hlen, Nat.min_eq_left (by omega)]; omega
      have hdiv : ((source playlistID).length - offset) / limit =
          ((source playlistID).length - (offset + limit)) / limit + 1 := by
        have : (source playlistID).length - offset =
            ((source playlistID).length - (offset + limit)) + limit := by omega
        rw [this, Nat.add_div_right _ hlimit]
      rw [if_neg h1]
      have hfuel2 := hfuel
      rw [hdiv] at hfuel2
      obtain ⟨s, hs⟩ := ih (offset + limit)
        (allTracks ++ trackIDs (List.take limit (List.drop offset (source playlistID))))
        ⟨(c.getPlaylistItems playlistID offset limit w.remote).2,
          w.requests ++ [Request.getPlaylistItems playlistID offset limit]⟩
        (by omega) (by omega)
      refine ⟨s, ?_⟩
      rw [hs, hdiv]
      have htracks : trackIDs (List.take limit (List.drop offset (source playlistID))) ++
          trackIDs (List.drop (offset + limit) (source playlistID)) =
          trackIDs (List.drop offset (source playlistID)) := by
        have hdrop : List.drop (offset + limit) (source playlistID) =
            List.drop limit (List.drop offset (source playlistID)) := by
          rw [List.drop_drop]
        rw [trackIDs, trackIDs, trackIDs, ← List.filterMap_append, hdrop,
          List.take_append_drop]
      rw [List.append_assoc, htracks, List.range_succ_eq_map
        (((source playlistID).length - (offset + limit)) / limit + 1)]
      simp only [List.map_cons, List.map_map, Nat.mul_zero, Nat.add_zero, List.append_assoc,
        List.singleton_append]
      congr 4
      apply List.map_congr_left
      intro k _
      simp only [Function.comp_apply]
      congr 1
      rw [Nat.mul_succ]
      omega

/-- C4 (amended). Page request count: over a paginated source of `N` items, the
paging loop with page size 100 finishes (given fuel for `N / 100 + 1` rounds) after
exactly `N / 100 + 1` page requests, at the offsets `0, 100, 200, ...`: that is
`ceil(N/100)` requests when `N` is not a multiple of 100 and `ceil(N/100) + 1`
when it is (one request when `N = 0`). -/
theorem pageLoop_request_count {σ : Type} (c : Client σ) (source : String → List PlaylistItem)
    (hsrc : IsPaginated c source) (playlistID : String) (fuel : Nat)
    (allTracks : List String) (w : World σ)
    (hfuel : (source playlistID).length / 100 + 1 ≤ fuel) :
    ∃ (tracks : List String) (w1 : World σ),
      pageLoop c playlistID 100 fuel 0 allTracks w = (.next tracks, w1) ∧
      w1.requests = w.requests ++
        (List.range ((source playlistID).length / 100 + 1)).map
          (fun k => Request.getPlaylistItems playlistID (100 * k) 100) ∧
      w1.requests.length = w.requests.length +
        (if (source playlistID).length % 100 = 0
          then ((source playlistID).length + 99) / 100 + 1
          else ((source playlistID).length + 99) / 100) := by
  obtain ⟨s, hs⟩ := pageLoop_paginated c source hsrc playlistID 100 (by decide) fuel 0
    allTracks w (Nat.zero_le _) (by simpa using hfuel)
  simp only [Nat.sub_zero, Nat.zero_add] at hs
  refine ⟨_, _, hs, rfl, ?_⟩
  simp only [List.length_append, List.length_map, List.length_range]
  congr 1
  split <;> omega

/-- C4 (amended), at the first playlist of `demoPlaylists` (three items, one request). -/
theorem pageLoop_request_count_witness :
    ∃ (tracks : List String) (w1 : World Unit),
      pageLoop (simpleClient demoPlaylists demoSource false false) "p0" 100 1 0 []
        ⟨(), []⟩ = (.next tracks, w1) ∧
      w1.requests = [] ++
        (List.range ((demoSource "p0").length / 100 + 1)).map
          (fun k => Request.getPlaylistItems "p0" (100 * k) 100) ∧
      w1.requests.length = 0 +
        (if (demoSource "p0").length % 100 = 0
          then ((demoSource "p0").length + 99) / 100 + 1
          else ((demoSource "p0").length + 99) / 100) :=
  pageLoop_request_count (simpleClient demoPlaylists demoSource false false) demoSource
    (fun _ _ _ _ => rfl) "p0" 1 [] ⟨(), []⟩ (by decide)

/-- C4 as stated fails when `N` is a multiple of 100: a source of no items gets
one page request, not `ceil(0/100) = 0`, and a source of 100 items gets two, not
`100/100 = 1`. -/
theorem pageLoop_request_count_counterexample :
    IsPaginated (simpleClient demoPlaylists demoSource false false) demoSource ∧
    (demoSource "empty").length = 0 ∧
    (pageLoop (simpleClient demoPlaylists demoSource false false) "empty" 100 5 0 []
      ⟨(), []⟩).2.requests = [.getPlaylistItems "empty" 0 100] ∧
    IsPaginated (simpleClient [] fullPageSource false false) fullPageSource ∧
    (fullPageSource "full").length = 100 ∧
    (pageLoop (simpleClient [] fullPageSource false false) "full" 100 5 0 []
      ⟨(), []⟩).2.requests =
      [.getPlaylistItems "full" 0 100, .getPlaylistItems "full" 100 100] := by
  refine ⟨fun _ _ _ _ => rfl, by decide, by decide, fun _ _ _ _ => rfl, by decide, ?_⟩
  decide

/-! ## Fetching all selected playlists -/

theorem fetchLoop_paginated_from {σ : Type} (c : Client σ)
    (source : String → List PlaylistItem) (hsrc : IsPaginated c source)
    (playlists : List SimplePlaylist) (sel : List (Fin playlists.length)) :
    ∃ fuel0 : Nat, ∀ fuel : Nat, fuel0 ≤ fuel → ∀ (allTracks : List String) (w : World σ),
      ∃ w1 : World σ,
        fetchLoop c fuel playlists (sel.map (fun i => (i.val : Int))) allTracks w =
          (.next (allTracks ++ sel.flatMap (fun i => trackIDs (source (playlists.get i).id))),
            w1) := by
  induction sel with
  | nil => exact ⟨0, fun fuel _ allTracks w => ⟨w, by simp [fetchLoop]⟩⟩
  | cons i rest ih =>
    obtain ⟨fuel0, hrest⟩ := ih
    refine ⟨max fuel0 ((source (playlists.get i).id).length / 100 + 1), ?_⟩
    intro fuel hfuel allTracks w
    have h1 : fuel0 ≤ fuel := le_trans (le_max_left _ _) hfuel
    have h2 : (source (playlists.get i).id).length / 100 + 1 ≤ fuel :=
      le_trans (le_max_right _ _) hfuel
    obtain ⟨s, hs⟩ := pageLoop_paginated c source hsrc (playlists.get i).id 100 (by decide)
      fuel 0 allTracks w (Nat.zero_le _) (by simpa using h2)
    obtain ⟨w1, hw1⟩ := hrest fuel h1
      (allTracks ++ trackIDs (List.drop 0 (source (playlists.get i).id)))
      ⟨s, w.requests ++ (List.range (((source (playlists.get i).id).length - 0) / 100 + 1)).map
        (fun k => Request.getPlaylistItems (playlists.get i).id (0 + 100 * k) 100)⟩
    refine ⟨w1, ?_⟩
    rw [List.map_cons, fetchLoop, indexAt_of_lt playlists i.val i.isLt]
    simp only [hs, Fin.eta]
    rw [hw1]
    simp

/-- C5. Aggregation content and order: for every in-bounds selection (duplicates
allowed) over a paginated source, the fetch loop, given enough fuel, finishes
without error and `allTracks` before shuffling is the concatenation, in selection
order, of the track ids of each selected playlist in the order of its items, the
items without a track left out. -/
theorem fetchLoop_aggregates {σ : Type} (c : Client σ) (source : String → List PlaylistItem)
    (hsrc : IsPaginated c source) (playlists : List SimplePlaylist)
    (sel : List (Fin playlists.length)) :
    ∃ fuel0 : Nat, ∀ fuel : Nat, fuel0 ≤ fuel → ∀ w : World σ, ∃ w1 : World σ,
      fetchLoop c fuel playlists (sel.map (fun i => (i.val : Int))) [] w =
        (.next (sel.flatMap (fun i => trackIDs (source (playlists.get i).id))), w1) := by
  obtain ⟨fuel0, h⟩ := fetchLoop_paginated_from c source hsrc playlists sel
  refine ⟨fuel0, fun fuel hfuel w => ?_⟩
  obtain ⟨w1, hw1⟩ := h fuel hfuel [] w
  exact ⟨w1, by simpa using hw1⟩

/-- C5, at the selection `[1, 0, 1]` over `demoPlaylists`. -/
theorem fetchLoop_aggregates_witness :
    ∃ fuel0 : Nat, ∀ fuel : Nat, fuel0 ≤ fuel → ∀ w : World Unit, ∃ w1 : World Unit,
      fetchLoop (simpleClient demoPlaylists demoSource false false) fuel demoPlaylists
        [1, 0, 1] [] w = (.next ["c", "d", "a", "b", "c", "d"], w1) :=
  fetchLoop_aggregates (simpleClient demoPlaylists demoSource false false) demoSource
    (fun _ _ _ _ => rfl) demoPlaylists [⟨1, by decide⟩, ⟨0, by decide⟩, ⟨1, by decide⟩]

/-! ## Writing in batches -/

theorem slice_append_drop {α : Type} (xs : List α) (i stop : Nat) (h : i ≤ stop)
    (hstop : stop ≤ xs.length) : slice xs i stop ++ xs.drop stop = xs.drop i := by
  have hlen : i ≤ (xs.take stop).length := by
    rw [List.length_take]; omega
  rw [slice, ← List.drop_append_of_le_length hlen, List.take_append_drop]

theorem writeLoop_calls {σ : Type} (c : Client σ) (playlistID : String)
    (allTracks : List String) (n : Nat) :
    ∀ (i successfulAdditions : Nat) (w : World σ), allTracks.length - i ≤ n →
      ∃ calls : List (List String),
        (writeLoop c playlistID allTracks i successfulAdditions w).1 =
          successfulAdditions + calls.length ∧
        (writeLoop c playlistID allTracks i successfulAdditions w).2.requests =
          w.requests ++ calls.map (fun t => Request.addTracksToPlaylist playlistID t) ∧
        calls.length = (allTracks.length - i + 19) / 20 ∧
        (∀ t ∈ calls, 1 ≤ t.length ∧ t.length ≤ 20) ∧
        calls.flatten = allTracks.drop i := by
  induction n with
  | zero =>
    intro i cnt w h
    have hi : ¬ i < allTracks.length := by omega
    rw [writeLoop, if_neg hi]
    refine ⟨[], by simp, by simp, ?_, by simp, ?_⟩
    · simp only [List.length_nil]; omega
    · rw [List.flatten_nil, List.drop_of_length_le (by omega)]
  | succ n ih =>
    intro i cnt w h
    by_cases hi : i < allTracks.length
    · rw [writeLoop, if_pos hi]
      simp only [batchSize]
      obtain ⟨calls, h1, h2, h3, h4, h5⟩ := ih (i + 20) (cnt + 1)
        ⟨(c.addTracksToPlaylist playlistID
            (slice allTracks i
              (if i + 20 > allTracks.length then allTracks.length else i + 20)) w.remote).2,
          w.requests ++ [Request.addTracksToPlaylist playlistID
            (slice allTracks i
              (if i + 20 > allTracks.length then allTracks.length else i + 20))]⟩
        (by omega)
      refine ⟨slice allTracks i
        (if i + 20 > allTracks.length then allTracks.length else i + 20) :: calls,
        ?_, ?_, ?_, ?_, ?_⟩
      · rw [h1, List.length_cons]; omega
      · rw [h2]; simp
      · rw [List.length_cons, h3]; omega
      · intro t ht
        rcases List.mem_cons.mp ht with rfl | ht
        · rw [slice, List.length_drop, List.length_take]
          split <;> omega
        · exact h4 t ht
      · rw [List.flatten_cons, h5]
        by_cases hover : i + 20 > allTracks.length
        · rw [if_pos hover, List.drop_of_length_le (by omega : allTracks.length ≤ i + 20)]
          have := slice_append_drop allTracks i allTracks.length (by omega) (le_refl _)
          rw [List.drop_of_length_le (le_refl _)] at this
          exact this
        · rw [if_neg hover]
          exact slice_append_drop allTracks i (i + 20) (by omega) (by omega)
    · rw [writeLoop, if_neg hi]
      refine ⟨[], by simp, by simp, ?_, by simp, ?_⟩
      · simp only [List.length_nil]; omega
      · rw [List.flatten_nil, List.drop_of_length_le (by omega)]

theorem writeLoop_requests_congr {σ τ : Type} (c : Client σ) (d : Client τ)
    (playlistID : String) (allTracks : List String) (n : Nat) :
    ∀ (i cnt1 cnt2 : Nat) (w : World σ) (v : World τ), allTracks.length - i ≤ n →
      w.requests = v.requests →
      (writeLoop c playlistID allTracks i cnt1 w).2.requests =
        (writeLoop d playlistID allTracks i cnt2 v).2.requests := by
  induction n with
  | zero =>
    intro i cnt1 cnt2 w v h hreq
    have hi : ¬ i < allTracks.length := by omega
    rw [writeLoop, if_neg hi, writeLoop, if_neg hi]
    exact hreq
  | succ n ih =>
    intro i cnt1 cnt2 w v h hreq
    by_cases hi : i < allTracks.length
    · rw [writeLoop, if_pos hi, writeLoop.eq_def d, if_pos hi]
      simp only [batchSize]
      apply ih
      · omega
      · simp only [hreq]
    · rw [writeLoop, if_neg hi, writeLoop, if_neg hi]
      exact hreq

/-- C6. Batch partition: for every track list of length `N`, the write loop issues
exactly `ceil(N/20)` add-tracks requests (none when `N = 0`), each with between 1 and
20 tracks, and the concatenation of the requests' track lists, in the order of
the requests, is the input list. -/
theorem writeLoop_partition {σ : Type} (c : Client σ) (playlistID : String)
    (allTracks : List String) (w : World σ) :
    ∃ calls : List (List String),
      (writeLoop c playlistID allTracks 0 0 w).2.requests =
        w.requests ++ calls.map (fun t => Request.addTracksToPlaylist playlistID t) ∧
      calls.length = (allTracks.length + 19) / 20 ∧
      (∀ t ∈ calls, 1 ≤ t.length ∧ t.length ≤ 20) ∧
      calls.flatten = allTracks := by
  obtain ⟨calls, _, h2, h3, h4, h5⟩ :=
    writeLoop_calls c playlistID allTracks allTracks.length 0 0 w (by omega)
  exact ⟨calls, h2, by simpa using h3, h4, by simpa using h5⟩

/-! ## The requests of a run -/

theorem pageLoop_requests {σ : Type} (c : Client σ) (playlistID : String) (limit fuel : Nat) :
    ∀ (offset : Nat) (allTracks : List String) (w : World σ),
      ∃ pages : List Request,
        (pageLoop c playlistID limit fuel offset allTracks w).2.requests = w.requests ++ pages ∧
        ∀ r ∈ pages, isGetItems r = true := by
  induction fuel with
  | zero => intro offset allTracks w; exact ⟨[], by simp [pageLoop], by simp⟩
  | succ fuel ih =>
    intro offset allTracks w
    rw [pageLoop]
    simp only
    cases (c.getPlaylistItems playlistID offset limit w.remote).1 with
    | error err =>
      exact ⟨[.getPlaylistItems playlistID offset limit], rfl, by simp [isGetItems]⟩
    | ok items =>
      simp only
      split
      · exact ⟨[.getPlaylistItems playlistID offset limit], rfl, by simp [isGetItems]⟩
      · obtain ⟨pages, h1, h2⟩ := ih (offset + limit) (appendTracks allTracks items)
          ⟨(c.getPlaylistItems playlistID offset limit w.remote).2,
            w.requests ++ [.getPlaylistItems playlistID offset limit]⟩
        refine ⟨.getPlaylistItems playlistID offset limit :: pages, ?_, ?_⟩
        · rw [h1]; simp
        · intro r hr
          rcases List.mem_cons.mp hr with rfl | hr
          · rfl
          · exact h2 r hr

theorem fetchLoop_requests {σ : Type} (c : Client σ) (fuel : Nat)
    (playlists : List SimplePlaylist) (selectedIndices : List Int) :
    ∀ (allTracks : List String) (w : World σ),
      ∃ pages : List Request,
        (fetchLoop c fuel playlists selectedIndices allTracks w).2.requests =
          w.requests ++ pages ∧
        ∀ r ∈ pages, isGetItems r = true := by
  induction selectedIndices with
  | nil => intro allTracks w; exact ⟨[], by simp [fetchLoop], by simp⟩
  | cons index rest ih =>
    intro allTracks w
    rw [fetchLoop]
    cases indexAt playlists index with
    | none => exact ⟨[], by simp, by simp⟩
    | some playlist =>
      simp only
      obtain ⟨pages, h1, h2⟩ := pageLoop_requests c playlist.id 100 fuel 0 allTracks w
      rcases hp : pageLoop c playlist.id 100 fuel 0 allTracks w with ⟨res, w1⟩
      rw [hp] at h1
      cases res with
      | stop o => exact ⟨pages, h1, h2⟩
      | next tracks =>
        simp only
        obtain ⟨pages2, h3, h4⟩ := ih tracks w1
        refine ⟨pages ++ pages2, ?_, ?_⟩
        · rw [h3, h1, List.append_assoc]
        · intro r hr
          rcases List.mem_append.mp hr with hr | hr
          · exact h2 r hr
          · exact h4 r hr

theorem mixTracks_shape {σ : Type} (c : Client σ) (fuel : Nat)
    (playlists : List SimplePlaylist) (selectedIndices : List Int) (newPlaylistID : String)
    (draw : Nat → Nat) (w : World σ) :
    ∃ (pages : List Request) (calls : List (List String)),
      (mixTracks c fuel playlists selectedIndices newPlaylistID draw w).world.requests =
        w.requests ++ pages ++
          calls.map (fun t => Request.addTracksToPlaylist newPlaylistID t) ∧
      (∀ r ∈ pages, isGetItems r = true) ∧
      ((mixTracks c fuel playlists selectedIndices newPlaylistID draw w).outcome ≠ .exit0 →
        calls = []) ∧
      (mixTracks c fuel playlists selectedIndices newPlaylistID draw w).successfulAdditions =
        calls.length := by
  obtain ⟨pages, hp1, hp2⟩ := fetchLoop_requests c fuel playlists selectedIndices [] w
  rw [mixTracks]
  rcases hf : fetchLoop c fuel playlists selectedIndices [] w with ⟨res, w4⟩
  rw [hf] at hp1
  simp only at hp1
  cases res with
  | stop o => exact ⟨pages, [], by simpa using hp1, hp2, fun _ => rfl, rfl⟩
  | next allTracks =>
    simp only
    cases shuffle draw allTracks with
    | none => exact ⟨pages, [], by simpa using hp1, hp2, fun _ => rfl, rfl⟩
    | some shuffled =>
      obtain ⟨calls, h1, h2, _⟩ :=
        writeLoop_calls c newPlaylistID shuffled shuffled.length 0 0 w4 (by omega)
      refine ⟨pages, calls, ?_, hp2, fun h => absurd rfl h, by simpa using h1⟩
      simp only [h2, hp1]

/-- The shape of the request log of every run: the reads and the creation, then
page requests, then add-tracks requests, the latter only in a run that ends
with `os.Exit(0)`. -/
theorem mixer_shape {σ : Type} (c : Client σ) (fuel : Nat) (selectedIndicedStr : List Char)
    (newPlaylistName : String) (draw : Nat → Nat) (remote : σ) :
    ∃ (pre pages : List Request) (calls : List (List String)) (playlistID : String),
      (mixer c fuel selectedIndicedStr newPlaylistName draw remote).world.requests =
        pre ++ pages ++ calls.map (fun t => Request.addTracksToPlaylist playlistID t) ∧
      (pre = [.currentUser] ∨ ∃ userID, pre = [.currentUser, .getPlaylistsForUser userID] ∨
        pre = [.currentUser, .getPlaylistsForUser userID,
          .createPlaylistForUser userID newPlaylistName description false false]) ∧
      (∀ r ∈ pages, isGetItems r = true) ∧
      (pages ≠ [] ∨ calls ≠ [] → ∃ userID, pre = [.currentUser, .getPlaylistsForUser userID,
          .createPlaylistForUser userID newPlaylistName description false false]) ∧
      ((mixer c fuel selectedIndicedStr newPlaylistName draw remote).outcome ≠ .exit0 →
        calls = []) ∧
      (mixer c fuel selectedIndicedStr newPlaylistName draw remote).successfulAdditions =
        calls.length := by
  unfold mixer
  simp only
  split
  · exact ⟨[.currentUser], [], [], "", by simp, Or.inl rfl, by simp, by simp, by simp, rfl⟩
  · rename_i user _
    split
    · exact ⟨[.currentUser, .getPlaylistsForUser user.id], [], [], "", by simp,
        Or.inr ⟨user.id, Or.inl rfl⟩, by simp, by simp, by simp, rfl⟩
    · rename_i playlists _
      split
      · exact ⟨[.currentUser, .getPlaylistsForUser user.id], [], [], "", by simp,
          Or.inr ⟨user.id, Or.inl rfl⟩, by simp, by simp, by simp, rfl⟩
      · rename_i selectedIndices _
        split
        · exact ⟨[.currentUser, .getPlaylistsForUser user.id,
            .createPlaylistForUser user.id newPlaylistName description false false], [], [], "",
            by simp, Or.inr ⟨user.id, Or.inr rfl⟩, by simp, by simp, by simp, rfl⟩
        · rename_i newPlaylistID _
          obtain ⟨pages, calls, h1, h2, h3, h4⟩ := mixTracks_shape c fuel playlists
            selectedIndices newPlaylistID draw
            ⟨(c.createPlaylistForUser user.id newPlaylistName description false false
                (c.getPlaylistsForUser user.id (c.currentUser remote).2).2).2,
              [.currentUser] ++ [.getPlaylistsForUser user.id] ++
                [.createPlaylistForUser user.id newPlaylistName description false false]⟩
          exact ⟨[.currentUser, .getPlaylistsForUser user.id,
            .createPlaylistForUser user.id newPlaylistName description false false], pages,
            calls, newPlaylistID, h1, Or.inr ⟨user.id, Or.inr rfl⟩, h2,
            fun _ => ⟨user.id, rfl⟩, h3, h4⟩

/-! ## Failed page requests -/

/-- The paging loop on the recording client: the same result, the same requests and
the same remote state as on the client itself; and either nothing is recorded, or
the loop has ended the run with `log.Fatal` at the request it recorded, its last. -/
theorem pageLoop_recording {σ : Type} (c : Client σ) (playlistID : String) (limit fuel : Nat) :
    ∀ (offset : Nat) (allTracks : List String) (s : σ) (failures : List (Request × String))
      (requests : List Request),
      ∃ failures1 : List (Request × String),
        pageLoop (recording c) playlistID limit fuel offset allTracks ⟨(s, failures), requests⟩ =
          ((pageLoop c playlistID limit fuel offset allTracks ⟨s, requests⟩).1,
            ⟨((pageLoop c playlistID limit fuel offset allTracks ⟨s, requests⟩).2.remote,
                failures1),
              (pageLoop c playlistID limit fuel offset allTracks ⟨s, requests⟩).2.requests⟩) ∧
        (failures1 = failures ∨ ∃ (err : String) (req : Request),
          (pageLoop c playlistID limit fuel offset allTracks ⟨s, requests⟩).1 =
            .stop (.fatal err) ∧
          failures1 = failures ++ [(req, err)] ∧ isGetItems req = true ∧
          (pageLoop c playlistID limit fuel offset allTracks ⟨s, requests⟩).2.requests.getLast? =
            some req) := by
  induction fuel with
  | zero =>
    intro offset allTracks s failures requests
    exact ⟨failures, rfl, Or.inl rfl⟩
  | succ fuel ih =>
    intro offset allTracks s failures requests
    have hrec : (recording c).getPlaylistItems playlistID offset limit (s, failures) =
        ((c.getPlaylistItems playlistID offset limit s).1,
          ((c.getPlaylistItems playlistID offset limit s).2,
            match (c.getPlaylistItems playlistID offset limit s).1 with
            | .error err => failures ++ [(Request.getPlaylistItems playlistID offset limit, err)]
            | .ok _ => failures)) := rfl
    rw [pageLoop, pageLoop]
    simp only [hrec]
    cases hans : (c.getPlaylistItems playlistID offset limit s).1 with
    | error err =>
      refine ⟨failures ++ [(Request.getPlaylistItems playlistID offset limit, err)], rfl,
        Or.inr ⟨err, Request.getPlaylistItems playlistID offset limit, rfl, rfl, rfl, ?_⟩⟩
      simp
    | ok items =>
      simp only
      by_cases hshort : items.length < limit
      · simp only [if_pos hshort]
        exact ⟨failures, rfl, Or.inl rfl⟩
      · simp only [if_neg hshort]
        exact ih (offset + limit) (appendTracks allTracks items)
          (c.getPlaylistItems playlistID offset limit s).2 failures
          (requests ++ [Request.getPlaylistItems playlistID offset limit])

theorem fetchLoop_recording {σ : Type} (c : Client σ) (fuel : Nat)
    (playlists : List SimplePlaylist) (selectedIndices : List Int) :
    ∀ (allTracks : List String) (s : σ) (failures : List (Request × String))
      (requests : List Request),
      ∃ failures1 : List (Request × String),
        fetchLoop (recording c) fuel playlists selectedIndices allTracks
            ⟨(s, failures), requests⟩ =
          ((fetchLoop c fuel playlists selectedIndices allTracks ⟨s, requests⟩).1,
            ⟨((fetchLoop c fuel playlists selectedIndices allTracks ⟨s, requests⟩).2.remote,
                failures1),
              (fetchLoop c fuel playlists selectedIndices allTracks ⟨s, requests⟩).2.requests⟩) ∧
        (failures1 = failures ∨ ∃ (err : String) (req : Request),
          (fetchLoop c fuel playlists selectedIndices allTracks ⟨s, requests⟩).1 =
            .stop (.fatal err) ∧
          failures1 = failures ++ [(req, err)] ∧ isGetItems req = true ∧
          (fetchLoop c fuel playlists selectedIndices allTracks
            ⟨s, requests⟩).2.requests.getLast? = some req) := by
  induction selectedIndices with
  | nil =>
    intro allTracks s failures requests
    exact ⟨failures, rfl, Or.inl rfl⟩
  | cons index rest ih =>
    intro allTracks s failures requests
    rw [fetchLoop, fetchLoop]
    cases indexAt playlists index with
    | none => exact ⟨failures, rfl, Or.inl rfl⟩
    | some playlist =>
      simp only
      obtain ⟨failures1, hpage, hcase⟩ :=
        pageLoop_recording c playlist.id 100 fuel 0 allTracks s failures requests
      rw [hpage]
      rcases hp : pageLoop c playlist.id 100 fuel 0 allTracks ⟨s, requests⟩ with ⟨res, w1⟩
      rw [hp] at hcase
      cases res with
      | stop o =>
        refine ⟨failures1, rfl, ?_⟩
        rcases hcase with h | ⟨err, req, h1, h2, h3, h4⟩
        · exact Or.inl h
        · exact Or.inr ⟨err, req, h1, h2, h3, h4⟩
      | next tracks =>
        simp only
        rcases hcase with h | ⟨err, req, h1, _⟩
        · rw [h]
          exact ih tracks w1.remote failures w1.requests
        · exact absurd h1 (by simp)

theorem writeLoop_recording {σ : Type} (c : Client σ) (playlistID : String)
    (allTracks : List String) (n : Nat) :
    ∀ (i successfulAdditions : Nat) (s : σ) (failures : List (Request × String))
      (requests : List Request), allTracks.length - i ≤ n →
      writeLoop (recording c) playlistID allTracks i successfulAdditions
          ⟨(s, failures), requests⟩ =
        ((writeLoop c playlistID allTracks i successfulAdditions ⟨s, requests⟩).1,
          ⟨((writeLoop c playlistID allTracks i successfulAdditions ⟨s, requests⟩).2.remote,
              failures),
            (writeLoop c playlistID allTracks i successfulAdditions
              ⟨s, requests⟩).2.requests⟩) := by
  induction n with
  | zero =>
    intro i cnt s failures requests h
    have hi : ¬ i < allTracks.length := by omega
    rw [writeLoop, if_neg hi, writeLoop, if_neg hi]
  | succ n ih =>
    intro i cnt s failures requests h
    by_cases hi : i < allTracks.length
    · rw [writeLoop, if_pos hi, writeLoop.eq_def c, if_pos hi]
      simp only
      exact ih (i + batchSize) (cnt + 1) _ failures _ (by simp only [batchSize]; omega)
    · rw [writeLoop, if_neg hi, writeLoop, if_neg hi]

theorem mixTracks_recording {σ : Type} (c : Client σ) (fuel : Nat)
    (playlists : List SimplePlaylist) (selectedIndices : List Int) (newPlaylistID : String)
    (draw : Nat → Nat) (s : σ) (failures : List (Request × String))
    (requests : List Request) :
    (mixTracks (recording c) fuel playlists selectedIndices newPlaylistID draw
        ⟨(s, failures), requests⟩).outcome =
      (mixTracks c fuel playlists selectedIndices newPlaylistID draw ⟨s, requests⟩).outcome ∧
    (mixTracks (recording c) fuel playlists selectedIndices newPlaylistID draw
        ⟨(s, failures), requests⟩).world.requests =
      (mixTracks c fuel playlists selectedIndices newPlaylistID draw
        ⟨s, requests⟩).world.requests ∧
    ((mixTracks (recording c) fuel playlists selectedIndices newPlaylistID draw
        ⟨(s, failures), requests⟩).world.remote.2 = failures ∨
      ∃ (err : String) (req : Request),
        (mixTracks c fuel playlists selectedIndices newPlaylistID draw
          ⟨s, requests⟩).outcome = .fatal err ∧
        (mixTracks (recording c) fuel playlists selectedIndices newPlaylistID draw
          ⟨(s, failures), requests⟩).world.remote.2 = failures ++ [(req, err)] ∧
        isGetItems req = true ∧
        (mixTracks c fuel playlists selectedIndices newPlaylistID draw
          ⟨s, requests⟩).world.requests.getLast? = some req) := by
  obtain ⟨failures1, hfetch, hcase⟩ :=
    fetchLoop_recording c fuel playlists selectedIndices [] s failures requests
  rw [mixTracks, mixTracks, hfetch]
  rcases hf : fetchLoop c fuel playlists selectedIndices [] ⟨s, requests⟩ with ⟨res, w4⟩
  rw [hf] at hcase
  cases res with
  | stop o =>
    refine ⟨rfl, rfl, ?_⟩
    rcases hcase with h | ⟨err, req, h1, h2, h3, h4⟩
    · exact Or.inl h
    · simp only [Res.stop.injEq] at h1
      exact Or.inr ⟨err, req, by simp [h1], h2, h3, h4⟩
  | next allTracks =>
    have hsame : failures1 = failures := by
      rcases hcase with h | ⟨err, req, h1, _⟩
      · exact h
      · exact absurd h1 (by simp)
    simp only
    cases shuffle draw allTracks with
    | none => exact ⟨rfl, rfl, Or.inl hsame⟩
    | some shuffled =>
      simp only
      rw [writeLoop_recording c newPlaylistID shuffled shuffled.length 0 0 w4.remote failures1
        w4.requests (by omega)]
      exact ⟨trivial, rfl, Or.inl hsame⟩

/-- A run on the recording client is the run on the client itself; and either no
page request was answered with an error, or exactly one was, the last request of
the run, and the run ended with `log.Fatal` of its error. -/
theorem mixer_recording {σ : Type} (c : Client σ) (fuel : Nat) (selectedIndicedStr : List Char)
    (newPlaylistName : String) (draw : Nat → Nat) (remote : σ) :
    (mixer (recording c) fuel selectedIndicedStr newPlaylistName draw (remote, [])).outcome =
      (mixer c fuel selectedIndicedStr newPlaylistName draw remote).outcome ∧
    (mixer (recording c) fuel selectedIndicedStr newPlaylistName draw
        (remote, [])).world.requests =
      (mixer c fuel selectedIndicedStr newPlaylistName draw remote).world.requests ∧
    (failedPageRequests c fuel selectedIndicedStr newPlaylistName draw remote = [] ∨
      ∃ (err : String) (req : Request),
        (mixer c fuel selectedIndicedStr newPlaylistName draw remote).outcome = .fatal err ∧
        failedPageRequests c fuel selectedIndicedStr newPlaylistName draw remote =
          [(req, err)] ∧
        isGetItems req = true ∧
        (mixer c fuel selectedIndicedStr newPlaylistName draw remote).world.requests.getLast? =
          some req) := by
  unfold failedPageRequests mixer
  simp only [recording]
  split
  · exact ⟨rfl, rfl, Or.inl rfl⟩
  · rename_i user _
    split
    · exact ⟨rfl, rfl, Or.inl rfl⟩
    · rename_i playlists _
      split
      · exact ⟨rfl, rfl, Or.inl rfl⟩
      · rename_i selectedIndices _
        split
        · exact ⟨rfl, rfl, Or.inl rfl⟩
        · rename_i newPlaylistID _
          have h := mixTracks_recording c fuel playlists selectedIndices newPlaylistID draw
            (c.createPlaylistForUser user.id newPlaylistName description false false
              (c.getPlaylistsForUser user.id (c.currentUser remote).2).2).2 []
            ([Request.currentUser] ++ [Request.getPlaylistsForUser user.id] ++
              [Request.createPlaylistForUser user.id newPlaylistName description false false])
          simp only [List.nil_append] at h
          exact h

/-- C3 (amended). Creation precedes fetching: on every run in which the remote
service answers a page request with an error, that request is the only failed one
and the last request of the run, the run ends with `log.Fatal` of its error, and the
request log is the two reads, then the create-playlist request for the new
playlist, then page requests only: the create-playlist request has been sent before
the first page was asked for, and no add-tracks request is issued. -/
theorem mixer_page_failure {σ : Type} (c : Client σ) (fuel : Nat)
    (selectedIndicedStr : List Char) (newPlaylistName : String) (draw : Nat → Nat)
    (remote : σ)
    (hfail : failedPageRequests c fuel selectedIndicedStr newPlaylistName draw remote ≠ []) :
    ∃ (err : String) (req : Request) (userID : String) (pages : List Request),
      failedPageRequests c fuel selectedIndicedStr newPlaylistName draw remote = [(req, err)] ∧
      (mixer c fuel selectedIndicedStr newPlaylistName draw remote).outcome = .fatal err ∧
      (mixer c fuel selectedIndicedStr newPlaylistName draw remote).world.requests =
        [.currentUser, .getPlaylistsForUser userID,
          .createPlaylistForUser userID newPlaylistName description false false] ++
          pages ++ [req] ∧
      isGetItems req = true ∧ (∀ r ∈ pages, isGetItems r = true) ∧
      ∀ r ∈ (mixer c fuel selectedIndicedStr newPlaylistName draw remote).world.requests,
        isAddTracks r = false := by
  obtain ⟨_, _, hcase⟩ := mixer_recording c fuel selectedIndicedStr newPlaylistName draw remote
  rcases hcase with hnone | ⟨err, req, hfatal, hrec, hreq, hlast⟩
  · exact absurd hnone hfail
  · obtain ⟨pre, pages, calls, pid, hlog, hpre, hpages, hfull, hcalls, _⟩ :=
      mixer_shape c fuel selectedIndicedStr newPlaylistName draw remote
    have hnil : calls = [] := hcalls (by rw [hfatal]; simp)
    subst hnil
    rw [List.map_nil, List.append_nil] at hlog
    have hne : pages ≠ [] := by
      rintro rfl
      rw [hlog, List.append_nil] at hlast
      rcases hpre with rfl | ⟨userID, rfl | rfl⟩ <;>
        simp only [List.getLast?_cons_cons, List.getLast?_singleton, Option.some.injEq] at hlast <;>
        rw [← hlast] at hreq <;> simp [isGetItems] at hreq
    obtain ⟨userID, rfl⟩ := hfull (Or.inl hne)
    have hpl : pages.getLast? = some req := by
      rw [hlog, List.getLast?_append_of_ne_nil _ hne] at hlast
      exact hlast
    have hsplit : pages = pages.dropLast ++ [req] :=
      (List.dropLast_append_getLast? req hpl).symm
    refine ⟨err, req, userID, pages.dropLast, hrec, hfatal, ?_, hreq, ?_, ?_⟩
    · rw [hlog, List.append_assoc, ← hsplit]
    · intro r hr
      exact hpages r (List.mem_of_mem_dropLast hr)
    · intro r hr
      rw [hlog] at hr
      rcases List.mem_append.mp hr with hr | hr
      · simp only [List.mem_cons, List.mem_singleton, List.not_mem_nil, or_false] at hr
        rcases hr with rfl | rfl | rfl <;> rfl
      · have := hpages r hr
        cases r <;> first | rfl | simp [isGetItems] at this

/-- C3 (amended), at a run whose first page request fails. -/
theorem mixer_page_failure_witness :
    ∃ (err : String) (req : Request) (userID : String) (pages : List Request),
      failedPageRequests (simpleClient demoPlaylists demoSource true false) 5 "0".toList "mix"
        (fun _ => 0) () = [(req, err)] ∧
      (mixer (simpleClient demoPlaylists demoSource true false) 5 "0".toList "mix"
        (fun _ => 0) ()).outcome = .fatal err ∧
      (mixer (simpleClient demoPlaylists demoSource true false) 5 "0".toList "mix"
        (fun _ => 0) ()).world.requests =
        [.currentUser, .getPlaylistsForUser userID,
          .createPlaylistForUser userID "mix" description false false] ++ pages ++ [req] ∧
      isGetItems req = true ∧ (∀ r ∈ pages, isGetItems r = true) ∧
      ∀ r ∈ (mixer (simpleClient demoPlaylists demoSource true false) 5 "0".toList "mix"
        (fun _ => 0) ()).world.requests, isAddTracks r = false :=
  mixer_page_failure (simpleClient demoPlaylists demoSource true false) 5 "0".toList "mix"
    (fun _ => 0) () (by decide)

/-- C3 as stated fails: in a run whose first page request fails, the create-playlist
request has been issued (and answered) before that page request. -/
theorem mixer_fail_fast_counterexample :
    (mixer (simpleClient demoPlaylists demoSource true false) 5 "0".toList "mix"
      (fun _ => 0) ()).outcome = .fatal "items: request failed" ∧
    (mixer (simpleClient demoPlaylists demoSource true false) 5 "0".toList "mix"
      (fun _ => 0) ()).world.requests =
      [.currentUser, .getPlaylistsForUser "u",
        .createPlaylistForUser "u" "mix" description false false,
        .getPlaylistItems "p0" 0 100] := by
  decide

theorem selectLoop_stop (playlists : List SimplePlaylist) (toks : List (List Char)) :
    ∀ (acc : List Int) (o : Outcome), selectLoop playlists toks acc = .stop o →
      ∃ err, o = .returned err := by
  induction toks with
  | nil => intro acc o h; simp [selectLoop] at h
  | cons t rest ih =>
    intro acc o h
    rw [selectLoop] at h
    cases hat : atoi (trimSpace t) with
    | none =>
      rw [hat] at h
      simp only [Res.stop.injEq] at h
      exact ⟨_, h.symm⟩
    | some index =>
      rw [hat] at h
      simp only at h
      by_cases hr : index < 0 ∨ index > (playlists.length : Int) - 1
      · rw [if_pos hr] at h
        simp only [Res.stop.injEq] at h
        exact ⟨_, h.symm⟩
      · rw [if_neg hr] at h
        obtain ⟨x, hx⟩ := indexAt_in_range playlists index hr
        rw [hx] at h
        exact ih _ _ h

/-- C8 (amended). Destination playlist creation: every create-playlist request of a
run asks for a non-collaborative playlist that is not public (`public = false`),
under the name stored by `fmt.Scanln` and with the fixed description.  The name is
not checked by the program: once the user and the playlists are fetched and the
selection is valid, the request is sent for every name, the empty one included;
when the remote service answers it with an error the run ends with `log.Fatal` of
that error and nothing else is requested, and when it answers with a playlist the
run goes on with the fetch of the tracks. -/
theorem mixer_create_request {σ : Type} (c : Client σ) (fuel : Nat)
    (selectedIndicedStr : List Char) (newPlaylistName : String) (draw : Nat → Nat)
    (remote : σ) :
    (∀ (userID playlistName descr : String) (isPublic collaborative : Bool),
      Request.createPlaylistForUser userID playlistName descr isPublic collaborative ∈
        (mixer c fuel selectedIndicedStr newPlaylistName draw remote).world.requests →
      playlistName = newPlaylistName ∧ descr = description ∧ isPublic = false ∧
        collaborative = false) ∧
    (∀ (user : User) (playlists : List SimplePlaylist) (selectedIndices : List Int)
      (s1 s2 : σ),
      c.currentUser remote = (.ok user, s1) →
      c.getPlaylistsForUser user.id s1 = (.ok playlists, s2) →
      parseSelection playlists selectedIndicedStr = .next selectedIndices →
      (∃ rest : List Request,
        (mixer c fuel selectedIndicedStr newPlaylistName draw remote).world.requests =
          [.currentUser, .getPlaylistsForUser user.id,
            .createPlaylistForUser user.id newPlaylistName description false false] ++ rest) ∧
      (∀ (err : String) (s3 : σ),
        c.createPlaylistForUser user.id newPlaylistName description false false s2 =
          (.error err, s3) →
        (mixer c fuel selectedIndicedStr newPlaylistName draw remote).outcome = .fatal err ∧
        (mixer c fuel selectedIndicedStr newPlaylistName draw remote).world.requests =
          [.currentUser, .getPlaylistsForUser user.id,
            .createPlaylistForUser user.id newPlaylistName description false false]) ∧
      (∀ (newPlaylistID : String) (s3 : σ),
        c.createPlaylistForUser user.id newPlaylistName description false false s2 =
          (.ok newPlaylistID, s3) →
        mixer c fuel selectedIndicedStr newPlaylistName draw remote =
          mixTracks c fuel playlists selectedIndices newPlaylistID draw
            ⟨s3, [.currentUser, .getPlaylistsForUser user.id,
              .createPlaylistForUser user.id newPlaylistName description false false]⟩)) := by
  constructor
  · obtain ⟨pre, pages, calls, pid, hreq, hpre, hpages, _, _, _⟩ :=
      mixer_shape c fuel selectedIndicedStr newPlaylistName draw remote
    intro userID playlistName descr isPublic collaborative hmem
    rw [hreq, List.mem_append, List.mem_append] at hmem
    rcases hmem with (hmem | hmem) | hmem
    · rcases hpre with rfl | ⟨uid, rfl | rfl⟩
      · simp at hmem
      · simp at hmem
      · simp only [List.mem_cons, List.mem_singleton, List.not_mem_nil, or_false,
          Request.createPlaylistForUser.injEq, false_or, reduceCtorEq] at hmem
        obtain ⟨_, h1, h2, h3, h4⟩ := hmem
        exact ⟨h1, h2, h3, h4⟩
    · have := hpages _ hmem
      simp [isGetItems] at this
    · simp at hmem
  · intro user playlists selectedIndices s1 s2 huser hlist hparse
    have hrej : ∀ (err : String) (s3 : σ),
        c.createPlaylistForUser user.id newPlaylistName description false false s2 =
          (.error err, s3) →
        mixer c fuel selectedIndicedStr newPlaylistName draw remote =
          ⟨.fatal err, 0, ⟨s3, [.currentUser, .getPlaylistsForUser user.id,
            .createPlaylistForUser user.id newPlaylistName description false false]⟩⟩ := by
      intro err s3 hcreate
      simp only [mixer, huser, hlist, hparse, hcreate, List.singleton_append,
        List.cons_append, List.nil_append]
    have hacc : ∀ (newPlaylistID : String) (s3 : σ),
        c.createPlaylistForUser user.id newPlaylistName description false false s2 =
          (.ok newPlaylistID, s3) →
        mixer c fuel selectedIndicedStr newPlaylistName draw remote =
          mixTracks c fuel playlists selectedIndices newPlaylistID draw
            ⟨s3, [.currentUser, .getPlaylistsForUser user.id,
              .createPlaylistForUser user.id newPlaylistName description false false]⟩ := by
      intro newPlaylistID s3 hcreate
      simp only [mixer, huser, hlist, hparse, hcreate, List.singleton_append,
        List.cons_append, List.nil_append]
    refine ⟨?_, ?_, hacc⟩
    · rcases hc : c.createPlaylistForUser user.id newPlaylistName description false false s2
        with ⟨ans, s3⟩
      cases ans with
      | error err =>
        rw [hrej err s3 hc]
        exact ⟨[], by simp⟩
      | ok newPlaylistID =>
        rw [hacc newPlaylistID s3 hc]
        obtain ⟨pages, calls, h1, _⟩ := mixTracks_shape c fuel playlists selectedIndices
          newPlaylistID draw
          ⟨s3, [.currentUser, .getPlaylistsForUser user.id,
            .createPlaylistForUser user.id newPlaylistName description false false]⟩
        exact ⟨pages ++ calls.map (fun t => Request.addTracksToPlaylist newPlaylistID t),
          by rw [h1, List.append_assoc]⟩
    · intro err s3 hcreate
      rw [hrej err s3 hcreate]
      exact ⟨rfl, rfl⟩

/-- C8 (amended), at the empty name and a remote service that rejects it: the
request is sent and the run ends with `log.Fatal` of the service's error. -/
theorem mixer_create_request_witness :
    (mixer (strictClient demoPlaylists demoSource) 5 "0".toList "" (fun _ => 0) ()).outcome =
      .fatal "create: missing name" ∧
    (mixer (strictClient demoPlaylists demoSource) 5 "0".toList "" (fun _ => 0)
      ()).world.requests =
      [.currentUser, .getPlaylistsForUser "u",
        .createPlaylistForUser "u" "" description false false] :=
  ((mixer_create_request (strictClient demoPlaylists demoSource) 5 "0".toList ""
    (fun _ => 0) ()).2 ⟨"u", "User"⟩ demoPlaylists [0] () () rfl rfl (by decide)).2.1
    "create: missing name" () rfl

/-- C8 as stated fails: with an empty name the program sends the create-playlist
request all the same, asking for a playlist that is not public, and on a remote
service that accepts it the playlist is created and an add-tracks request
follows. -/
theorem mixer_create_counterexample :
    (mixer (simpleClient demoPlaylists demoSource false false) 5 "0".toList ""
      (fun _ => 0) ()).outcome = .exit0 ∧
    (mixer (simpleClient demoPlaylists demoSource false false) 5 "0".toList ""
      (fun _ => 0) ()).world.requests =
      [.currentUser, .getPlaylistsForUser "u",
        .createPlaylistForUser "u" "" description false false,
        .getPlaylistItems "p0" 0 100, .addTracksToPlaylist "new" ["b", "a"]] := by
  have hrun : mixer (simpleClient demoPlaylists demoSource false false) 5 "0".toList ""
      (fun _ => 0) () =
      ⟨.exit0,
        (writeLoop (simpleClient demoPlaylists demoSource false false) "new" ["b", "a"] 0 0
          ⟨(), [.currentUser, .getPlaylistsForUser "u",
            .createPlaylistForUser "u" "" description false false,
            .getPlaylistItems "p0" 0 100]⟩).1,
        (writeLoop (simpleClient demoPlaylists demoSource false false) "new" ["b", "a"] 0 0
          ⟨(), [.currentUser, .getPlaylistsForUser "u",
            .createPlaylistForUser "u" "" description false false,
            .getPlaylistItems "p0" 0 100]⟩).2⟩ := rfl
  rw [hrun]
  refine ⟨rfl, ?_⟩
  simp [writeLoop, batchSize, slice]

/-! ## Best-effort writes -/

theorem pageLoop_withAddTracks {σ : Type} (c : Client σ)
    (add : String → List String → σ → Except String Unit × σ) (playlistID : String)
    (limit fuel : Nat) :
    ∀ (offset : Nat) (allTracks : List String) (w : World σ),
      pageLoop (withAddTracks c add) playlistID limit fuel offset allTracks w =
        pageLoop c playlistID limit fuel offset allTracks w := by
  induction fuel with
  | zero => intro offset allTracks w; rfl
  | succ fuel ih =>
    intro offset allTracks w
    have hproj : (withAddTracks c add).getPlaylistItems = c.getPlaylistItems := rfl
    rw [pageLoop, pageLoop, hproj]
    simp only [ih]

theorem fetchLoop_withAddTracks {σ : Type} (c : Client σ)
    (add : String → List String → σ → Except String Unit × σ) (fuel : Nat)
    (playlists : List SimplePlaylist) (selectedIndices : List Int) :
    ∀ (allTracks : List String) (w : World σ),
      fetchLoop (withAddTracks c add) fuel playlists selectedIndices allTracks w =
        fetchLoop c fuel playlists selectedIndices allTracks w := by
  induction selectedIndices with
  | nil => intro allTracks w; rfl
  | cons index rest ih =>
    intro allTracks w
    rw [fetchLoop, fetchLoop]
    simp only [pageLoop_withAddTracks, ih]

theorem mixTracks_withAddTracks {σ : Type} (c : Client σ)
    (add : String → List String → σ → Except String Unit × σ) (fuel : Nat)
    (playlists : List SimplePlaylist) (selectedIndices : List Int) (newPlaylistID : String)
    (draw : Nat → Nat) (w : World σ) :
    (mixTracks (withAddTracks c add) fuel playlists selectedIndices newPlaylistID draw
        w).outcome =
      (mixTracks c fuel playlists selectedIndices newPlaylistID draw w).outcome ∧
    (mixTracks (withAddTracks c add) fuel playlists selectedIndices newPlaylistID draw
        w).world.requests =
      (mixTracks c fuel playlists selectedIndices newPlaylistID draw w).world.requests ∧
    (mixTracks (withAddTracks c add) fuel playlists selectedIndices newPlaylistID draw
        w).successfulAdditions =
      (mixTracks c fuel playlists selectedIndices newPlaylistID draw w).successfulAdditions := by
  rw [mixTracks, mixTracks, fetchLoop_withAddTracks]
  rcases fetchLoop c fuel playlists selectedIndices [] w with ⟨res, w4⟩
  cases res with
  | stop o => exact ⟨rfl, rfl, rfl⟩
  | next allTracks =>
    simp only
    cases shuffle draw allTracks with
    | none => exact ⟨rfl, rfl, rfl⟩
    | some shuffled =>
      simp only
      refine ⟨trivial, ?_, ?_⟩
      · exact writeLoop_requests_congr _ _ newPlaylistID shuffled shuffled.length 0 0 0 w4 w4
          (by omega) rfl
      · obtain ⟨calls1, h1, _, h3, _⟩ := writeLoop_calls (withAddTracks c add) newPlaylistID
          shuffled shuffled.length 0 0 w4 (by omega)
        obtain ⟨calls2, k1, _, k3, _⟩ := writeLoop_calls c newPlaylistID
          shuffled shuffled.length 0 0 w4 (by omega)
        rw [h1, k1, h3, k3]

theorem filter_isAddTracks_pages (pages : List Request)
    (h : ∀ r ∈ pages, isGetItems r = true) : pages.filter isAddTracks = [] := by
  rw [List.filter_eq_nil_iff]
  intro r hr
  have := h r hr
  cases r <;> simp_all [isGetItems, isAddTracks]

theorem filter_isAddTracks_calls (playlistID : String) (calls : List (List String)) :
    ((calls.map (fun t => Request.addTracksToPlaylist playlistID t)).filter isAddTracks).length =
      calls.length := by
  induction calls with
  | nil => rfl
  | cons t rest ih => simp [List.filter_cons, isAddTracks, ih]

theorem mixTracks_exit {σ : Type} (c : Client σ) (fuel : Nat)
    (playlists : List SimplePlaylist) (selectedIndices : List Int) (newPlaylistID : String)
    (draw : Nat → Nat) (w w4 : World σ) (allTracks shuffled : List String)
    (hfetch : fetchLoop c fuel playlists selectedIndices [] w = (.next allTracks, w4))
    (hshuffle : shuffle draw allTracks = some shuffled) :
    (mixTracks c fuel playlists selectedIndices newPlaylistID draw w).outcome = .exit0 ∧
    (mixTracks c fuel playlists selectedIndices newPlaylistID draw w).successfulAdditions =
      (shuffled.length + 19) / 20 := by
  rw [mixTracks, hfetch]
  simp only [hshuffle]
  obtain ⟨calls, h1, _, h3, _⟩ :=
    writeLoop_calls c newPlaylistID shuffled shuffled.length 0 0 w4 (by omega)
  refine ⟨trivial, ?_⟩
  rw [h1, h3]
  simp

/-- C7. Best-effort writes: whatever the answers `add` to the add-tracks requests
(success or failure, in any pattern), the write loop issues the same add-tracks
requests as with any other answers, in particular as when all of them succeed
(`addSucceeds`), and its counter ends at the number of chunks attempted,
`ceil(N/20)`; the whole run ends the same way, with the same request log, and the
counter equals the number of add-tracks requests issued; and once the tracks are
fetched and shuffled, the run ends with `os.Exit(0)` and the counter at
`ceil(N/20)`, whatever the answers. -/
theorem writeLoop_best_effort {σ : Type} (c : Client σ)
    (add : String → List String → σ → Except String Unit × σ) :
    (∀ (playlistID : String) (allTracks : List String) (w : World σ),
      (writeLoop (withAddTracks c add) playlistID allTracks 0 0 w).2.requests =
        (writeLoop (withAddTracks c addSucceeds) playlistID allTracks 0 0 w).2.requests ∧
      (writeLoop (withAddTracks c add) playlistID allTracks 0 0 w).1 =
        (allTracks.length + 19) / 20) ∧
    (∀ (fuel : Nat) (selectedIndicedStr : List Char) (newPlaylistName : String)
      (draw : Nat → Nat) (remote : σ),
      (mixer (withAddTracks c add) fuel selectedIndicedStr newPlaylistName draw
          remote).outcome =
        (mixer (withAddTracks c addSucceeds) fuel selectedIndicedStr newPlaylistName draw
          remote).outcome ∧
      (mixer (withAddTracks c add) fuel selectedIndicedStr newPlaylistName draw
          remote).world.requests =
        (mixer (withAddTracks c addSucceeds) fuel selectedIndicedStr newPlaylistName draw
          remote).world.requests ∧
      (mixer (withAddTracks c add) fuel selectedIndicedStr newPlaylistName draw
          remote).successfulAdditions =
        ((mixer (withAddTracks c add) fuel selectedIndicedStr newPlaylistName draw
          remote).world.requests.filter isAddTracks).length) ∧
    (∀ (fuel : Nat) (playlists : List SimplePlaylist) (selectedIndices : List Int)
      (newPlaylistID : String) (draw : Nat → Nat) (w w4 : World σ)
      (allTracks shuffled : List String),
      fetchLoop (withAddTracks c add) fuel playlists selectedIndices [] w =
        (.next allTracks, w4) →
      shuffle draw allTracks = some shuffled →
      (mixTracks (withAddTracks c add) fuel playlists selectedIndices newPlaylistID draw
        w).outcome = .exit0 ∧
      (mixTracks (withAddTracks c add) fuel playlists selectedIndices newPlaylistID draw
        w).successfulAdditions = (shuffled.length + 19) / 20) := by
  refine ⟨?_, ?_, ?_⟩
  · intro playlistID allTracks w
    constructor
    · exact writeLoop_requests_congr _ _ playlistID allTracks allTracks.length 0 0 0 w w
        (by omega) rfl
    · obtain ⟨calls, h1, _, h3, _⟩ := writeLoop_calls (withAddTracks c add) playlistID
        allTracks allTracks.length 0 0 w (by omega)
      rw [h1, h3]
      simp
  · intro fuel selectedIndicedStr newPlaylistName draw remote
    refine ⟨?_, ?_, ?_⟩
    · unfold mixer
      simp only [withAddTracks]
      split
      · rfl
      · split
        · rfl
        · split
          · rfl
          · split
            · rfl
            · exact ((mixTracks_withAddTracks c add _ _ _ _ _ _).1).trans
                ((mixTracks_withAddTracks c addSucceeds _ _ _ _ _ _).1).symm
    · unfold mixer
      simp only [withAddTracks]
      split
      · rfl
      · split
        · rfl
        · split
          · rfl
          · split
            · rfl
            · exact ((mixTracks_withAddTracks c add _ _ _ _ _ _).2.1).trans
                ((mixTracks_withAddTracks c addSucceeds _ _ _ _ _ _).2.1).symm
    · obtain ⟨pre, pages, calls, pid, hreq, hpre, hpages, _, _, hcnt⟩ :=
        mixer_shape (withAddTracks c add) fuel selectedIndicedStr newPlaylistName draw remote
      rw [hcnt, hreq, List.filter_append, List.filter_append,
        filter_isAddTracks_pages pages hpages, List.append_nil, List.length_append,
        filter_isAddTracks_calls]
      rcases hpre with rfl | ⟨userID, rfl | rfl⟩ <;> simp [List.filter_cons, isAddTracks]
  · intro fuel playlists selectedIndices newPlaylistID draw w w4 allTracks shuffled hf hs
    exact mixTracks_exit _ fuel playlists selectedIndices newPlaylistID draw w w4 allTracks
      shuffled hf hs

/-- C7, at a run in which the only add-tracks request fails: the run ends with
`os.Exit(0)` and the counter is 1. -/
theorem writeLoop_best_effort_witness :
    (mixTracks (withAddTracks (simpleClient demoPlaylists demoSource false false) addFails)
      5 demoPlaylists [0] "new" (fun _ => 0) ⟨(), []⟩).outcome = .exit0 ∧
    (mixTracks (withAddTracks (simpleClient demoPlaylists demoSource false false) addFails)
      5 demoPlaylists [0] "new" (fun _ => 0) ⟨(), []⟩).successfulAdditions =
      (["b", "a"].length + 19) / 20 :=
  (writeLoop_best_effort (simpleClient demoPlaylists demoSource false false) addFails).2.2
    5 demoPlaylists [0] "new" (fun _ => 0) ⟨(), []⟩ ⟨(), [.getPlaylistItems "p0" 0 100]⟩
    ["a", "b"] ["b", "a"] rfl rfl

/-! ## The shuffle -/

theorem swap_some {α : Type} (l : List α) (i j : Nat) (hi : i < l.length) (hj : j < l.length) :
    swap l i j = some ((l.set i (l.get ⟨j, hj⟩)).set j (l.get ⟨i, hi⟩)) := by
  simp [swap, List.getElem?_eq_getElem hi, List.getElem?_eq_getElem hj]

theorem swap_length {α : Type} (l l1 : List α) (i j : Nat) (h : swap l i j = some l1) :
    l1.length = l.length := by
  unfold swap at h
  split at h
  · simp only [Option.some.injEq] at h
    rw [← h]; simp
  · exact absurd h (by simp)

theorem swap_perm {α : Type} (l l1 : List α) (i j : Nat) (h : swap l i j = some l1) :
    l1.Perm l := by
  classical
  unfold swap at h
  split at h
  · rename_i x y hx hy
    simp only [Option.some.injEq] at h
    obtain ⟨hi, hxi⟩ := List.getElem?_eq_some_iff.mp hx
    obtain ⟨hj, hyj⟩ := List.getElem?_eq_some_iff.mp hy
    rw [← h, List.perm_iff_count]
    intro a
    rw [List.count_set _ _ _ _ (by simpa using hj), List.count_set _ _ _ _ hi]
    by_cases hij : i = j
    · subst hij
      have hxy : x = y := by rw [← hxi, ← hyj]
      subst hxy
      have hpos : 0 < List.count a l ∨ ¬ (x == a) = true := by
        by_cases hxa : (x == a) = true
        · left
          rw [List.count_pos_iff]
          have : x = a := by simpa using hxa
          rw [← this, ← hxi]
          exact List.getElem_mem _
        · right; exact hxa
      simp only [List.getElem_set_self, hxi]
      split <;> rcases hpos with hp | hp <;> simp_all
    · have hget : (l.set i y).get ⟨j, by simpa using hj⟩ = y := by
        rw [List.get_eq_getElem, List.getElem_set_ne hij, hyj]
      rw [List.get_eq_getElem] at hget
      have hxmem : (x == a) = true → 0 < List.count a l := by
        intro hxa
        rw [List.count_pos_iff]
        have : x = a := by simpa using hxa
        rw [← this, ← hxi]
        exact List.getElem_mem _
      have hymem : (y == a) = true → 0 < List.count a l := by
        intro hya
        rw [List.count_pos_iff]
        have : y = a := by simpa using hya
        rw [← this, ← hyj]
        exact List.getElem_mem _
      rw [hget, hxi]
      by_cases hxa : (x == a) = true <;> by_cases hya : (y == a) = true
      · have := hxmem hxa
        simp only [hxa, hya, if_true]; omega
      · have := hxmem hxa
        simp only [hxa, hya, if_true, if_false, Bool.false_eq_true]; omega
      · have := hymem hya
        simp only [hxa, hya, if_true, if_false, Bool.false_eq_true]; omega
      · simp only [hxa, hya, if_false, Bool.false_eq_true]; omega
  · exact absurd h (by simp)

theorem shuffleLoop_perm {α : Type} (draw : Nat → Nat) (k : Nat) :
    ∀ (l l1 : List α), shuffleLoop draw k l = some l1 → l1.Perm l := by
  induction k with
  | zero =>
    intro l l1 h
    simp only [shuffleLoop, Option.some.injEq] at h
    rw [h]
  | succ k ih =>
    intro l l1 h
    rw [shuffleLoop] at h
    cases hs : swap l (k + 1) (draw (k + 1)) with
    | none => rw [hs] at h; exact absurd h (by simp)
    | some l2 =>
      rw [hs] at h
      exact (ih l2 l1 h).trans (swap_perm l l2 _ _ hs)

theorem shuffleLoop_some {α : Type} (draw : Nat → Nat) (hdraw : ∀ i, draw i ≤ i) (k : Nat) :
    ∀ (l : List α), k = 0 ∨ k < l.length → ∃ l1, shuffleLoop draw k l = some l1 := by
  induction k with
  | zero => intro l _; exact ⟨l, rfl⟩
  | succ k ih =>
    intro l hk
    have hlt : k + 1 < l.length := by omega
    have hj : draw (k + 1) < l.length := lt_of_le_of_lt (hdraw (k + 1)) hlt
    rw [shuffleLoop, swap_some l (k + 1) (draw (k + 1)) hlt hj]
    apply ih
    right
    simp only [List.length_set]
    omega

theorem shuffleLoop_congr {α : Type} (d1 d2 : Nat → Nat) (k : Nat) :
    (∀ i, i ≤ k → d1 i = d2 i) → ∀ l : List α, shuffleLoop d1 k l = shuffleLoop d2 k l := by
  induction k with
  | zero => intro _ l; rfl
  | succ k ih =>
    intro h l
    rw [shuffleLoop, shuffleLoop, h (k + 1) (le_refl _)]
    cases swap l (k + 1) (d2 (k + 1)) with
    | none => rfl
    | some l2 => exact ih (fun i hi => h i (by omega)) l2

theorem swap_append {α : Type} (pre suf : List α) (i j : Nat) (hi : i < pre.length)
    (hj : j < pre.length) (p1 : List α) (h : swap pre i j = some p1) :
    swap (pre ++ suf) i j = some (p1 ++ suf) := by
  rw [swap_some pre i j hi hj] at h
  simp only [Option.some.injEq] at h
  rw [swap_some (pre ++ suf) i j (by simp; omega) (by simp; omega), ← h]
  simp only [List.get_eq_getElem, List.getElem_append_left hi, List.getElem_append_left hj]
  rw [List.set_append_left _ _ hi, List.set_append_left _ _ (by simpa using hj)]

/-- One round of the shuffle can bring any element of the list to the last place. -/
theorem swap_to_last {α : Type} (pre : List α) (k : Nat) (hlen : pre.length = k + 2) (x : α)
    (hx : x ∈ pre) :
    ∃ (j : Nat) (q : List α), j ≤ k + 1 ∧ swap pre (k + 1) j = some (q ++ [x]) := by
  obtain ⟨j, hj, hjx⟩ := List.getElem_of_mem hx
  have hk : k + 1 < pre.length := by omega
  have hsw := swap_some pre (k + 1) j hk hj
  have hne : (pre.set (k + 1) (pre.get ⟨j, hj⟩)).set j (pre.get ⟨k + 1, hk⟩) ≠ [] := by
    intro h0
    have := congrArg List.length h0
    simp only [List.length_set, List.length_nil] at this
    omega
  have hlast : ((pre.set (k + 1) (pre.get ⟨j, hj⟩)).set j (pre.get ⟨k + 1, hk⟩)).getLast hne =
      x := by
    rw [List.getLast_eq_getElem]
    have h21 : k + 2 - 1 = k + 1 := by omega
    simp only [List.length_set, hlen, List.get_eq_getElem, h21]
    by_cases hjk : j = k + 1
    · subst hjk
      simp [hjx]
    · rw [List.getElem_set_ne hjk]
      simp [hjx]
  refine ⟨j, ((pre.set (k + 1) (pre.get ⟨j, hj⟩)).set j (pre.get ⟨k + 1, hk⟩)).dropLast,
    by omega, ?_⟩
  rw [hsw, ← hlast, List.dropLast_append_getLast hne]

/-- Every ordering of the first `k + 1` positions is reached by some draws. -/
theorem shuffleLoop_reach {α : Type} (k : Nat) :
    ∀ (pre suf target : List α), pre.length = k + 1 → target.Perm pre →
      ∃ draw : Nat → Nat, (∀ i, draw i ≤ i) ∧
        shuffleLoop draw k (pre ++ suf) = some (target ++ suf) := by
  induction k with
  | zero =>
    intro pre suf target hlen hperm
    refine ⟨fun _ => 0, fun i => Nat.zero_le i, ?_⟩
    rw [shuffleLoop]
    obtain ⟨a, rfl⟩ := List.length_eq_one.mp hlen
    rw [List.perm_singleton.mp hperm]
  | succ k ih =>
    intro pre suf target hlen hperm
    have htlen : target.length = k + 2 := by rw [hperm.length_eq, hlen]
    have htne : target ≠ [] := by
      intro h0; rw [h0] at htlen; simp at htlen
    have htarget := List.dropLast_append_getLast htne
    have hx : target.getLast htne ∈ pre := hperm.subset (List.getLast_mem htne)
    obtain ⟨j, q, hj, hsw⟩ := swap_to_last pre k hlen (target.getLast htne) hx
    have hqperm : (q ++ [target.getLast htne]).Perm pre := swap_perm _ _ _ _ hsw
    have hqlen : q.length = k + 1 := by
      have := swap_length _ _ _ _ hsw
      simp only [List.length_append, List.length_singleton] at this
      omega
    have hq : target.dropLast.Perm q := by
      rw [← List.perm_append_right_iff [target.getLast htne], htarget]
      exact hperm.trans hqperm.symm
    obtain ⟨draw1, hdraw1, hloop⟩ := ih q ([target.getLast htne] ++ suf) target.dropLast hqlen hq
    refine ⟨fun i => if i = k + 1 then j else draw1 i, ?_, ?_⟩
    · intro i
      by_cases hi : i = k + 1
      · simp only [hi, if_true]; exact hj
      · simp only [hi, if_false]; exact hdraw1 i
    · rw [shuffleLoop]
      simp only [if_true]
      rw [swap_append pre suf (k + 1) j (by omega) (by omega) _ hsw]
      simp only
      rw [shuffleLoop_congr _ draw1 k (fun i hi => by
        have : i ≠ k + 1 := by omega
        simp [this]), List.append_assoc, hloop, ← List.append_assoc, htarget]

/-- C10. Shuffle preserves the multiset: for every list and every outcome of the
random source (draws `draw i ≤ i`, as the library makes them), the shuffle ends
without panic in a permutation of the list (same length, same elements with the
same multiplicities); and every ordering of the list is the result of the shuffle
for some outcome of the random source. -/
theorem shuffle_permutation {α : Type} (allTracks : List α) :
    (∀ draw : Nat → Nat, (∀ i, draw i ≤ i) →
      ∃ shuffled, shuffle draw allTracks = some shuffled ∧ shuffled.Perm allTracks ∧
        shuffled.length = allTracks.length) ∧
    (∀ target : List α, target.Perm allTracks →
      ∃ draw : Nat → Nat, (∀ i, draw i ≤ i) ∧ shuffle draw allTracks = some target) := by
  constructor
  · intro draw hdraw
    obtain ⟨l1, h1⟩ := shuffleLoop_some draw hdraw (allTracks.length - 1) allTracks (by omega)
    have hperm := shuffleLoop_perm draw _ _ _ h1
    exact ⟨l1, h1, hperm, hperm.length_eq⟩
  · intro target hperm
    cases hlen : allTracks.length with
    | zero =>
      have h0 : allTracks = [] := List.length_eq_zero.mp hlen
      subst h0
      refine ⟨fun _ => 0, fun i => Nat.zero_le i, ?_⟩
      rw [List.perm_nil.mp hperm]
      rfl
    | succ k =>
      obtain ⟨draw, hdraw, hloop⟩ := shuffleLoop_reach k allTracks [] target hlen hperm
      refine ⟨draw, hdraw, ?_⟩
      rw [List.append_nil, List.append_nil] at hloop
      rw [shuffle, hlen]
      exact hloop

/-- C10, at the draws that are all 0 and at the reversed list as a target. -/
theorem shuffle_permutation_witness :
    (∃ shuffled, shuffle (fun _ => 0) ["a", "b", "c"] = some shuffled ∧
      shuffled.Perm ["a", "b", "c"] ∧ shuffled.length = ["a", "b", "c"].length) ∧
    (∃ draw : Nat → Nat, (∀ i, draw i ≤ i) ∧
      shuffle draw ["a", "b", "c"] = some ["c", "b", "a"]) :=
  ⟨(shuffle_permutation ["a", "b", "c"]).1 (fun _ => 0) (fun i => Nat.zero_le i),
   (shuffle_permutation ["a", "b", "c"]).2 ["c", "b", "a"] (by decide)⟩

/-! ## The callback handler -/

/-- A callback whose state is not the issued nonce never hands a token to the main
flow: the handler ends the process. -/
theorem callbackHandler_mismatch
    (authToken : String → CallbackRequest → Except String Token) (r : CallbackRequest)
    (h : formValue r "state" ≠ "state-string") :
    (∃ err, (callbackHandler authToken r).ending = .fatal err) ∧
      receiveToken authToken r = none := by
  have hend : ∃ err, (callbackHandler authToken r).ending = .fatal err := by
    unfold callbackHandler
    simp only
    split
    · exact ⟨_, rfl⟩
    · rw [if_pos h]
      exact ⟨_, rfl⟩
  obtain ⟨err, herr⟩ := hend
  exact ⟨⟨err, herr⟩, by rw [receiveToken, herr]⟩

/-- The handler gives `auth.Token` the state of the request as the expected state,
so `auth.Token` never refuses a request for its state: with the library method, a
request that carries a code and no error gets that code exchanged whatever its
state is. -/
theorem callbackHandler_exchanges (exchange : String → Except String Token)
    (r : CallbackRequest) (herr : queryGet r "error" = "") (hcode : queryGet r "code" ≠ "") :
    (callbackHandler (libraryToken exchange) r).exchanged = exchange (queryGet r "code") := by
  have hlib : libraryToken exchange (queryGet r "state") r = exchange (queryGet r "code") := by
    simp [libraryToken, herr, hcode]
  unfold callbackHandler
  simp only [hlib]
  split
  · rfl
  · split <;> rfl

/-- The comparison with the nonce reads `r.FormValue`, which prefers the form body:
a request whose URL carries another state passes when its body carries the
nonce, and its token is sent to the main flow. -/
theorem callbackHandler_body_state :
    queryGet bodyStateRequest "state" = "forged" ∧
    receiveToken (libraryToken demoExchange) bodyStateRequest = some ⟨"access"⟩ := by
  decide

/-- C9. The state-nonce check comes after the exchange: at a callback request with a
valid code and the state `forged`, the handler's call of `auth.Token` exchanges the
code and gets a token, and only then does the handler see the mismatch and end
the process (no token reaches the main flow); the same library method, given the
issued nonce `state-string` as the expected state, refuses the request without
exchanging the code. -/
theorem callbackHandler_forged_state :
    queryGet forgedRequest "state" ≠ "state-string" ∧
    callbackHandler (libraryToken demoExchange) forgedRequest =
      ⟨.ok ⟨"access"⟩, .fatal "State mismatch"⟩ ∧
    receiveToken (libraryToken demoExchange) forgedRequest = none ∧
    libraryToken demoExchange "state-string" forgedRequest =
      .error "spotify: redirect state parameter doesn't match" := by
  decide

end PlaylistMixer
